import Mathlib

/-!
Shallow embedding of the TRMNL next-lunch extraction and payload-compaction
script.  JavaScript strings are modeled as lists of Unicode scalar values
(`Str`); all sizes and limits are small naturals, so no machine-integer
overflow is involved.  The two date regular expressions of the source are
modeled by explicit leftmost-match scanners with the same greedy/backtracking
behaviour; the configurable meal regular expression is threaded through as an
abstract Boolean predicate on strings, and the timezone-dependent `formatDate`
display formatter as an abstract function, since no claim constrains either.
-/

/-- JavaScript strings, modeled as their sequence of Unicode scalar values. -/
abbrev Str := List Char

/-- Decimal digit test, the `\d` class of the source regexes. -/
def isDigit (c : Char) : Bool := 48 ≤ c.toNat && c.toNat ≤ 57

/-- Word character, as used by the `\b` boundary assertion (`[A-Za-z0-9_]`). -/
def isWordChar (c : Char) : Bool :=
  (65 ≤ c.toNat && c.toNat ≤ 90) || (97 ≤ c.toNat && c.toNat ≤ 122) || isDigit c || c = '_'

/-- Numeric value of a digit character. -/
def dv (c : Char) : Nat := c.toNat - 48

/-- JavaScript whitespace: the `\s` class, also used by `String.prototype.trim`. -/
def isJsSpace (c : Char) : Bool :=
  c.toNat = 9 || c.toNat = 10 || c.toNat = 11 || c.toNat = 12 || c.toNat = 13 ||
  c.toNat = 32 || c.toNat = 0xa0 || c.toNat = 0x1680 ||
  (0x2000 ≤ c.toNat && c.toNat ≤ 0x200a) || c.toNat = 0x2028 || c.toNat = 0x2029 ||
  c.toNat = 0x202f || c.toNat = 0x205f || c.toNat = 0x3000 || c.toNat = 0xfeff

/-- JavaScript `String.prototype.trim`. -/
def jsTrim (s : Str) : Str :=
  ((s.dropWhile isJsSpace).reverse.dropWhile isJsSpace).reverse

/-- Replacement of `/\s+/g` by a single space, as in `cleanLabel`: a
whitespace run contributes one space, tracked by an in-run flag. -/
def collapseWsGo (inRun : Bool) : Str → Str
  | [] => []
  | c :: cs =>
    if isJsSpace c then
      if inRun then collapseWsGo true cs else ' ' :: collapseWsGo true cs
    else c :: collapseWsGo false cs

def collapseWs (s : Str) : Str := collapseWsGo false s

/-- ASCII lowering, modeling `toLowerCase` and the `i` regex flag on the ASCII
repertoire the source compares against. -/
def asciiLower (s : Str) : Str :=
  s.map (fun c => if 65 ≤ c.toNat && c.toNat ≤ 90 then Char.ofNat (c.toNat + 32) else c)

/-- Source `truncateText`: cap a string at `maxChars` characters, appending a
one-character ellipsis when content is cut. -/
def truncateText (value : Str) (maxChars : Nat) : Str :=
  if maxChars ≤ 1 then value.take 1
  else if value.length ≤ maxChars then value
  else value.take (maxChars - 1) ++ ['…']

/-- Characters allowed in the body of an ANSI color sequence, `[0-9;]`. -/
def isAnsiBody (c : Char) : Bool := isDigit c || c = ';'

/-- Remainder of the input after an ANSI sequence `[ [0-9;]* m` (the part
following the escape character), when one matches there. -/
def ansiTail (s : Str) : Option Str :=
  match s with
  | '[' :: rest =>
    match rest.dropWhile isAnsiBody with
    | 'm' :: tail => some tail
    | _ => none
  | _ => none

theorem ansiTail_length {s t : Str} (h : ansiTail s = some t) : t.length < s.length := by
  unfold ansiTail at h
  split at h
  · rename_i rest
    split at h
    · rename_i tail hdrop
      cases h
      have h1 : ('m' :: t).length ≤ rest.length := by
        rw [← hdrop]
        exact List.Sublist.length_le (List.dropWhile_sublist _)
      simp only [List.length_cons] at h1 ⊢
      omega
    · exact absurd h (by simp)
  · exact absurd h (by simp)

/-- Source `stripAnsi`: remove `ESC [ [0-9;]* m` color sequences, scanning left
to right as the global regex replace does. -/
def stripAnsi : Str → Str
  | [] => []
  | c :: cs =>
    if c = '\x1b' then
      match h : ansiTail cs with
      | some tail => stripAnsi tail
      | none => c :: stripAnsi cs
    else c :: stripAnsi cs
termination_by s => s.length
decreasing_by
  · have := ansiTail_length h
    simp only [List.length_cons]
    omega
  · simp
  · simp

/-- Trailing `\b`: the character after a match must not be a word character. -/
def boundaryAfter : Str → Bool
  | [] => true
  | c :: _ => !isWordChar c

/-- Match of `20\d{2}-\d{2}-\d{2}` at the head of the input, with the trailing
word boundary; returns the ten matched characters. -/
def isoMatchAt : Str → Option Str
  | '2' :: '0' :: a :: b :: '-' :: c :: d :: '-' :: e :: f :: rest =>
    if isDigit a && isDigit b && isDigit c && isDigit d && isDigit e && isDigit f
        && boundaryAfter rest
    then some ['2', '0', a, b, '-', c, d, '-', e, f] else none
  | _ => none

/-- Leftmost match of `DATE_RE_ISO` = `/\b20\d{2}-\d{2}-\d{2}\b/`: positions are
scanned left to right; `prevWord` tracks whether the preceding character is a
word character, deciding the leading `\b` (the first pattern character is a
digit, hence a word character). -/
def findIso (prevWord : Bool) : Str → Option Str
  | [] => none
  | c :: cs =>
    match (if prevWord then none else isoMatchAt (c :: cs)) with
    | some t => some t
    | none => findIso (isWordChar c) cs

/-- Year-and-trailing-boundary tail of `DATE_RE_US`: `20\d{2}\b`. -/
def usFinish (month day : Nat) : Str → Option (Nat × Nat × Nat)
  | '2' :: '0' :: y1 :: y2 :: rest =>
    if isDigit y1 && isDigit y2 && boundaryAfter rest
    then some (month, day, 2000 + 10 * dv y1 + dv y2) else none
  | _ => none

def usSlashYear (month day : Nat) : Str → Option (Nat × Nat × Nat)
  | '/' :: rest => usFinish month day rest
  | _ => none

/-- Day group `([0-3]?\d)` of `DATE_RE_US`, greedy with backtracking into the
one-digit alternative when the longer parse cannot complete the match. -/
def usDay (month : Nat) (s : Str) : Option (Nat × Nat × Nat) :=
  (match s with
   | a :: b :: rest =>
     if (48 ≤ a.toNat && a.toNat ≤ 51) && isDigit b
     then usSlashYear month (10 * dv a + dv b) rest else none
   | _ => none)
  <|>
  (match s with
   | a :: rest => if isDigit a then usSlashYear month (dv a) rest else none
   | _ => none)

def usSlashDay (month : Nat) : Str → Option (Nat × Nat × Nat)
  | '/' :: rest => usDay month rest
  | _ => none

/-- Match of `([01]?\d)\/([0-3]?\d)\/(20\d{2})\b` at the head of the input,
greedy with backtracking, returning the captured month, day and year. -/
def usMatchAt (s : Str) : Option (Nat × Nat × Nat) :=
  (match s with
   | a :: b :: rest =>
     if (a.toNat = 48 || a.toNat = 49) && isDigit b
     then usSlashDay (10 * dv a + dv b) rest else none
   | _ => none)
  <|>
  (match s with
   | a :: rest => if isDigit a then usSlashDay (dv a) rest else none
   | _ => none)

/-- Leftmost match of `DATE_RE_US` = `/\b([01]?\d)\/([0-3]?\d)\/(20\d{2})\b/`. -/
def findUs (prevWord : Bool) : Str → Option (Nat × Nat × Nat)
  | [] => none
  | c :: cs =>
    match (if prevWord then none else usMatchAt (c :: cs)) with
    | some t => some t
    | none => findUs (isWordChar c) cs

/-- Decimal rendering of a natural, the JavaScript template interpolation. -/
def numToStr (n : Nat) : Str := (toString n).data

/-- JavaScript `String(n).padStart(2, "0")`. -/
def pad2 (n : Nat) : Str :=
  let s := numToStr n
  if s.length < 2 then List.replicate (2 - s.length) '0' ++ s else s

/-- Source `usDateToIso`: first `DATE_RE_US` match, range-validated, then
reformatted as `YYYY-MM-DD`; an invalid first match yields null outright. -/
def usDateToIso (v : Str) : Option Str :=
  match findUs false v with
  | none => none
  | some (month, day, year) =>
    if month < 1 || 12 < month || day < 1 || 31 < day then none
    else some (numToStr year ++ '-' :: (pad2 month ++ '-' :: pad2 day))

/-- Source `coerceIsoDate`: the embedded ISO token if one matches, else the
slash-delimited US form. -/
def coerceIsoDate (v : Str) : Option Str :=
  match findIso false v with
  | some t => some t
  | none => usDateToIso v

/-- Parsed JSON values.  Object fields are ordered and (by JSON parsing) have
unique keys; numbers are modeled as integers, the repertoire this development
evaluates (no claim depends on float formatting). -/
inductive Json where
  | null : Json
  | bool : Bool → Json
  | num : Int → Json
  | str : Str → Json
  | arr : List Json → Json
  | obj : List (Str × Json) → Json

mutual

def jsize : Json → Nat
  | .null => 1
  | .bool _ => 1
  | .num _ => 1
  | .str _ => 1
  | .arr xs => 1 + jsizeL xs
  | .obj fs => 1 + jsizeF fs

def jsizeL : List Json → Nat
  | [] => 0
  | x :: xs => jsize x + jsizeL xs

def jsizeF : List (Str × Json) → Nat
  | [] => 0
  | f :: fs => jsize f.2 + jsizeF fs

end

/-- JavaScript `Object.values`. -/
def jsonValues (fs : List (Str × Json)) : List Json := fs.map (fun f => f.2)

/-- JavaScript property read `obj[k]` (keys are unique by JSON parsing). -/
def jsonLookup (fs : List (Str × Json)) (k : Str) : Option Json :=
  (fs.find? (fun f => f.1 == k)).map (fun f => f.2)

/-- Source `isPlainObject`: a non-null object that is not an array. -/
def isPlainObject : Json → Bool
  | .obj _ => true
  | _ => false

/-- JavaScript `typeof v === "object"`, which holds for null as well. -/
def typeofObject : Json → Bool
  | .obj _ => true
  | .arr _ => true
  | .null => true
  | _ => false

/-- The truthy object test `e && typeof e === "object"` (null excluded). -/
def truthyObject : Json → Bool
  | .obj _ => true
  | .arr _ => true
  | _ => false

theorem jsizeL_append (a b : List Json) : jsizeL (a ++ b) = jsizeL a + jsizeL b := by
  induction a with
  | nil => simp [jsizeL]
  | cons x xs ih => simp [jsizeL, ih]; omega

theorem jsizeL_reverse (a : List Json) : jsizeL a.reverse = jsizeL a := by
  induction a with
  | nil => rfl
  | cons x xs ih =>
    simp only [List.reverse_cons, jsizeL_append, jsizeL, ih]
    omega

theorem jsizeL_values (fs : List (Str × Json)) : jsizeL (jsonValues fs) = jsizeF fs := by
  induction fs with
  | nil => rfl
  | cons f fs ih => simp only [jsonValues, List.map_cons, jsizeL, jsizeF] at ih ⊢; omega

/-- NFKD decomposition followed by the source's combining-mark strip, modeled
on the character repertoire this development evaluates: identity on ASCII
(which NFKD leaves unchanged), with the ellipsis decomposing to three dots. -/
def nfkdChar (c : Char) : Str := if c = '…' then ['.', '.', '.'] else [c]

/-- Source `cleanLabel` on a string value: NFKD-normalize, strip combining
marks, strip trademark glyphs, collapse whitespace runs, trim. -/
def cleanLabel (value : Str) : Str :=
  jsTrim (collapseWs (((value.flatMap nfkdChar).filter
    (fun c => !(0x300 ≤ c.toNat && c.toNat ≤ 0x36f))).filter
    (fun c => !(c = '®' || c = '™'))))

/-- Test of `/^https?:\/\//i`. -/
def isHttpUrl (s : Str) : Bool :=
  match asciiLower s with
  | 'h' :: 't' :: 't' :: 'p' :: rest =>
    (match rest with
     | 's' :: ':' :: '/' :: '/' :: _ => true
     | ':' :: '/' :: '/' :: _ => true
     | _ => false)
  | _ => false

/-- Test of `/^(lunch|breakfast|dinner|menu)$/i`. -/
def isMealWord (s : Str) : Bool :=
  let l := asciiLower s
  l == "lunch".data || l == "breakfast".data || l == "dinner".data || l == "menu".data

/-- Source `cleanFoodName` on a string value. -/
def cleanFoodName (raw : Str) : Option Str :=
  let value := cleanLabel raw
  if value.isEmpty then none
  else if value.length < 2 || 90 < value.length then none
  else if (findIso false value).isSome || (findUs false value).isSome then none
  else if isHttpUrl value then none
  else if isMealWord value then none
  else some value

/-- Source `cleanFoodName` applied to a possibly-absent raw name. -/
def cleanFoodNameO : Option Str → Option Str
  | none => none
  | some r => cleanFoodName r

/-- The alias literal `today's menu features`. -/
def todaysAlias : Str := "today".data ++ '\'' :: "s menu features".data

/-- Source `normalizeSectionName`; `raw` and `fallback` are absent when the
corresponding argument is not a string (`cleanLabel` returns null there). -/
def normalizeSectionName (raw fallback : Option Str) : Option Str :=
  let base := (raw.map cleanLabel).orElse (fun _ => fallback.map cleanLabel)
  match base with
  | none => none
  | some b =>
    if b.isEmpty then none
    else
      let lower := asciiLower b
      if lower == "none".data || lower == "exclude".data || lower == "events".data then none
      else if lower == todaysAlias || lower == "todays menu features".data then
        some "Features".data
      else if lower == "sides and vegetables".data then some "Sides".data
      else if lower == "entrees".data || lower == "entree".data then some "Entrees".data
      else some (truncateText b 28)

/-- Ordered name keys of the source (`NAME_KEYS`). -/
def nameKeys : List Str :=
  ["name".data, "item_name".data, "itemName".data, "menuItemName".data,
   "displayName".data, "title".data]

/-- Ordered section keys of the source (`SECTION_KEYS`). -/
def sectionKeys : List Str :=
  ["displayCategory".data, "category".data, "course".data, "dailyCategory".data]

/-- Source `getFirstString`: first listed key whose value is a string with a
non-blank trim; returns the trimmed value. -/
def getFirstString (fs : List (Str × Json)) (keys : List Str) : Option Str :=
  keys.findSome? (fun k =>
    match jsonLookup fs k with
    | some (.str s) =>
      let t := jsTrim s
      if t.isEmpty then none else some t
    | _ => none)

/-- Source `hasStringValueMatching`. -/
def hasStringValueMatching (fs : List (Str × Json)) (re : Str → Bool) : Bool :=
  (jsonValues fs).any (fun v => match v with | .str s => re s | _ => false)

/-- An extracted (name, section) pair; the `section` field of the source is
spelled `sect` (`section` is a Lean keyword). -/
structure ItemPair where
  name : Str
  sect : Option Str
deriving DecidableEq

/-- Dedup key of the source extractors: the joined string
`name + "@@" + (section ?? "")`. -/
def pairKey (name : Str) (sect : Option Str) : Str :=
  name ++ '@' :: '@' :: sect.getD []

/-- One section bucket: its label and its item names. -/
structure SectionData where
  name : Str
  items : List Str
deriving DecidableEq

/-- Append `name` to the bucket of `sect`, creating the bucket at the end on
first encounter (JavaScript `Map` preserves insertion order). -/
def addToGroup (groups : List SectionData) (sect : Str) (name : Str) : List SectionData :=
  match groups with
  | [] => [⟨sect, [name]⟩]
  | g :: rest =>
    if g.name = sect then ⟨g.name, g.items ++ [name]⟩ :: rest
    else g :: addToGroup rest sect name

/-- Grouping loop of `buildSections`: a truthy (non-null, non-empty) section
sends the name to that section's bucket, otherwise to the `noSection` list. -/
def groupPairsGo (groups : List SectionData) (noSection : List Str) :
    List ItemPair → List SectionData × List Str
  | [] => (groups, noSection)
  | p :: ps =>
    match p.sect with
    | some s =>
      if s.isEmpty then groupPairsGo groups (noSection ++ [p.name]) ps
      else groupPairsGo (addToGroup groups s p.name) noSection ps
    | none => groupPairsGo groups (noSection ++ [p.name]) ps

def groupPairs (pairs : List ItemPair) : List SectionData × List Str :=
  groupPairsGo [] [] pairs

/-- Insertion-order deduplication, the `[...new Set(items)]` idiom. -/
def dedupStrGo (seen : List Str) : List Str → List Str
  | [] => []
  | x :: xs => if x ∈ seen then dedupStrGo seen xs else x :: dedupStrGo (x :: seen) xs

def dedupStr (l : List Str) : List Str := dedupStrGo [] l

/-- Stable insertion into a sorted list: the new element goes before the first
element it compares less-or-equal to. -/
def insertLe (le : α → α → Bool) (x : α) : List α → List α
  | [] => [x]
  | y :: ys => if le x y then x :: y :: ys else y :: insertLe le x ys

/-- Stable sort, modeling the (spec-mandated stable) `Array.prototype.sort`:
`le a b` states that the comparator on `(a, b)` is non-positive. -/
def sortBy (le : α → α → Bool) : List α → List α
  | [] => []
  | x :: xs => insertLe le x (sortBy le xs)

/-- Comparator `(a, b) => b.items.length - a.items.length` of `buildSections`:
non-positive exactly when `b` has at most as many items as `a`. -/
def sectionLe (a b : SectionData) : Bool := decide (b.items.length ≤ a.items.length)

/-- The deduplicated sections of `buildSections` in first-encounter order,
before sorting. -/
def groupedSections (pairs : List ItemPair) : List SectionData :=
  (groupPairs pairs).1.map (fun g => ⟨g.name, dedupStr g.items⟩)

/-- The deduplicated sections of `buildSections` after the stable sort by item
count descending, before the caps. -/
def sortedSections (pairs : List ItemPair) : List SectionData :=
  sortBy sectionLe (groupedSections pairs)

/-- Source `buildSections` (both call sites use the default limits 6 and 3). -/
def buildSections (pairs : List ItemPair) (sectionLimit itemsPerSection : Nat) :
    List SectionData × List Str :=
  (((sortedSections pairs).take sectionLimit).map
     (fun s => ⟨s.name, s.items.take itemsPerSection⟩),
   (dedupStr (groupPairs pairs).2).take 12)

/-- Inner loop of `extractLunchPairsFromSageDay` over one category array,
threading the seen-key set and the output pairs. -/
def lunchPairsItems (mealRe : Str → Bool) (categoryKey : Str) :
    List Str → List ItemPair → List Json → List Str × List ItemPair
  | seen, pairs, [] => (seen, pairs)
  | seen, pairs, item :: rest =>
    match item with
    | .obj fs =>
      if hasStringValueMatching fs mealRe then
        match cleanFoodNameO (getFirstString fs nameKeys) with
        | none => lunchPairsItems mealRe categoryKey seen pairs rest
        | some name =>
          let sect := normalizeSectionName (getFirstString fs sectionKeys) (some categoryKey)
          let key := pairKey name sect
          if key ∈ seen then lunchPairsItems mealRe categoryKey seen pairs rest
          else lunchPairsItems mealRe categoryKey (key :: seen) (pairs ++ [⟨name, sect⟩]) rest
      else lunchPairsItems mealRe categoryKey seen pairs rest
    | _ => lunchPairsItems mealRe categoryKey seen pairs rest

/-- Outer loop of `extractLunchPairsFromSageDay` over the day object's
entries; non-array category values are skipped. -/
def lunchPairsGo (mealRe : Str → Bool) :
    List Str → List ItemPair → List (Str × Json) → List ItemPair
  | _, pairs, [] => pairs
  | seen, pairs, (categoryKey, categoryValue) :: rest =>
    match categoryValue with
    | .arr items =>
      let sp := lunchPairsItems mealRe categoryKey seen pairs items
      lunchPairsGo mealRe sp.1 sp.2 rest
    | _ => lunchPairsGo mealRe seen pairs rest

/-- Source `extractLunchPairsFromSageDay`. -/
def extractLunchPairsFromSageDay (dayObj : List (Str × Json)) (mealRe : Str → Bool) :
    List ItemPair :=
  lunchPairsGo mealRe [] [] dayObj

/-- Extraction result (`date`, `date_display`, `sections`, `items`). -/
structure LunchResult where
  date : Str
  dateDisplay : Str
  sections : List SectionData
  items : List Str
deriving DecidableEq

/-- Lexicographic (code-unit) string comparison, the semantics of both the
JavaScript `<` operator on strings and `localeCompare` on ISO date strings. -/
def strLt : Str → Str → Bool
  | [], [] => false
  | [], _ :: _ => true
  | _ :: _, [] => false
  | a :: as, b :: bs =>
    if a.toNat < b.toNat then true
    else if b.toNat < a.toNat then false
    else strLt as bs

def strLe (a b : Str) : Bool := !strLt b a

/-- One date-keyed entry of the Sage day map. -/
structure DateEntry where
  iso : Str
  value : Json

/-- The date entries of `extractNextLunchFromSageDateMap`: keys put through
`usDateToIso`, non-dates and non-object values dropped (the map-then-filter of
the source, fused), then stably sorted by the ISO string. -/
def dateEntries (root : List (Str × Json)) : List DateEntry :=
  sortBy (fun a b => strLe a.iso b.iso)
    (root.filterMap (fun f =>
      match usDateToIso f.1 with
      | some iso => if isPlainObject f.2 then some ⟨iso, f.2⟩ else none
      | none => none))

/-- Selection loop of `extractNextLunchFromSageDateMap`: entries before the
start date are skipped, as are entries yielding no pairs.  The non-object case
is unreachable (entries are filtered to plain objects). -/
def sageLoop (fmtDate : Str → Str) (mealRe : Str → Bool) (startIso : Str) :
    List DateEntry → Option LunchResult
  | [] => none
  | e :: rest =>
    if strLt e.iso startIso then sageLoop fmtDate mealRe startIso rest
    else
      match e.value with
      | .obj fs =>
        let pairs := extractLunchPairsFromSageDay fs mealRe
        if pairs.isEmpty then sageLoop fmtDate mealRe startIso rest
        else
          let bs := buildSections pairs 6 3
          some ⟨e.iso, fmtDate e.iso, bs.1, bs.2⟩
      | _ => sageLoop fmtDate mealRe startIso rest

/-- Source `extractNextLunchFromSageDateMap`; `fmtDate` abstracts the
timezone-dependent `formatDate`, `mealRe` the meal regular expression test. -/
def extractNextLunchFromSageDateMap (root : Json) (fmtDate : Str → Str)
    (mealRe : Str → Bool) (startIso : Str) : Option LunchResult :=
  match root with
  | .obj fs =>
    let entries := dateEntries fs
    if entries.isEmpty then none
    else sageLoop fmtDate mealRe startIso entries
  | _ => none

/-- Container test of `extractItemPairs`: some field holds a non-empty array
whose first element has JavaScript typeof "object" (arrays and null pass). -/
def looksContainer (fs : List (Str × Json)) : Bool :=
  (jsonValues fs).any (fun v =>
    match v with
    | .arr (x :: _) => typeofObject x
    | _ => false)

/-- Work-stack traversal of `extractItemPairs`.  The JavaScript stack pops from
the end and pushes children in order, so in this head-of-list model children
are pushed reversed, preserving the visitation order.  Each pop consumes at
least one unit of the total stack size `jsizeL`, so the loop is bounded by a
structural fuel parameter that the entry point sets to the initial size; the
exhaustion branch is unreachable from `extractItemPairs`. -/
def itemPairsGo : Nat → List Str → List ItemPair → List Json → List ItemPair
  | _, _, pairs, [] => pairs
  | 0, _, pairs, _ :: _ => pairs
  | fuel + 1, seen, pairs, node :: rest =>
    match node with
    | .arr xs => itemPairsGo fuel seen pairs (xs.reverse ++ rest)
    | .obj fs =>
      let stack2 := (jsonValues fs).reverse ++ rest
      if looksContainer fs then itemPairsGo fuel seen pairs stack2
      else
        match cleanFoodNameO (getFirstString fs nameKeys) with
        | none => itemPairsGo fuel seen pairs stack2
        | some name =>
          let sect := normalizeSectionName (getFirstString fs sectionKeys) none
          let key := pairKey name sect
          if key ∈ seen then itemPairsGo fuel seen pairs stack2
          else itemPairsGo fuel (key :: seen) (pairs ++ [⟨name, sect⟩]) stack2
    | .null => itemPairsGo fuel seen pairs rest
    | .bool _ => itemPairsGo fuel seen pairs rest
    | .num _ => itemPairsGo fuel seen pairs rest
    | .str _ => itemPairsGo fuel seen pairs rest

/-- Source `extractItemPairs`. -/
def extractItemPairs (mealObj : Json) : List ItemPair :=
  itemPairsGo (jsizeL [mealObj]) [] [] [mealObj]

/-- Work-stack traversal of `findMealCandidates`, fuel-bounded like
`itemPairsGo`. -/
def findMealCandidatesGo (mealRe : Str → Bool) : Nat → List Json → List Json → List Json
  | _, acc, [] => acc
  | 0, acc, _ :: _ => acc
  | fuel + 1, acc, node :: rest =>
    match node with
    | .arr xs => findMealCandidatesGo mealRe fuel acc (xs.reverse ++ rest)
    | .obj fs =>
      let hasArray := (jsonValues fs).any
        (fun v => match v with | .arr (_ :: _) => true | _ => false)
      let acc2 := if hasStringValueMatching fs mealRe && hasArray then acc ++ [.obj fs] else acc
      findMealCandidatesGo mealRe fuel acc2 ((jsonValues fs).reverse ++ rest)
    | .null => findMealCandidatesGo mealRe fuel acc rest
    | .bool _ => findMealCandidatesGo mealRe fuel acc rest
    | .num _ => findMealCandidatesGo mealRe fuel acc rest
    | .str _ => findMealCandidatesGo mealRe fuel acc rest

/-- Source `findMealCandidates`. -/
def findMealCandidates (dayObj : Json) (mealRe : Str → Bool) : List Json :=
  findMealCandidatesGo mealRe (jsizeL [dayObj]) [] [dayObj]

/-- Ordered date keys of the source (`extractDateFromObject`). -/
def dateKeys : List Str :=
  ["date".data, "menuDate".data, "menu_date".data, "serviceDate".data, "serveDate".data,
   "day".data, "dayDate".data, "startDate".data]

/-- Source `coerceIsoDate` applied to a JSON value: non-strings yield null. -/
def coerceIsoDateJ : Json → Option Str
  | .str s => coerceIsoDate s
  | _ => none

/-- Source `extractDateFromObject`: the listed keys in order first, then a scan
of all field values in order (coerced dates are never empty, so the truthiness
test is `isSome`). -/
def extractDateFromObject (obj : Json) : Option Str :=
  match obj with
  | .obj fs =>
    match dateKeys.findSome? (fun k => (jsonLookup fs k).bind coerceIsoDateJ) with
    | some d => some d
    | none => (jsonValues fs).findSome? coerceIsoDateJ
  | _ => none

/-- Work-stack traversal of `findCandidateDayArrays`, fuel-bounded like
`itemPairsGo`. -/
def findCandidateDayArraysGo : Nat → List (List Json) → List Json → List (List Json)
  | _, acc, [] => acc
  | 0, acc, _ :: _ => acc
  | fuel + 1, acc, node :: rest =>
    match node with
    | .arr xs =>
      let lenOk := decide (2 ≤ xs.length) && decide (xs.length ≤ 45)
      let objsOk := xs.all truthyObject
      let hasDate := xs.any (fun e => (extractDateFromObject e).isSome)
      let acc2 := if lenOk && objsOk && hasDate then acc ++ [xs] else acc
      findCandidateDayArraysGo fuel acc2 (xs.reverse ++ rest)
    | .obj fs => findCandidateDayArraysGo fuel acc ((jsonValues fs).reverse ++ rest)
    | .null => findCandidateDayArraysGo fuel acc rest
    | .bool _ => findCandidateDayArraysGo fuel acc rest
    | .num _ => findCandidateDayArraysGo fuel acc rest
    | .str _ => findCandidateDayArraysGo fuel acc rest

/-- Source `findCandidateDayArrays`. -/
def findCandidateDayArrays (root : Json) : List (List Json) :=
  findCandidateDayArraysGo (jsizeL [root]) [] [root]

/-- Hex digit for the `\u00XX` escapes of `JSON.stringify` (lowercase). -/
def hexDigit (n : Nat) : Char := if n < 10 then Char.ofNat (48 + n) else Char.ofNat (87 + n)

/-- Escape of one character under `JSON.stringify`. -/
def escChar (c : Char) : Str :=
  if c = '"' then ['\\', '"']
  else if c = '\\' then ['\\', '\\']
  else if c.toNat = 8 then ['\\', 'b']
  else if c.toNat = 9 then ['\\', 't']
  else if c.toNat = 10 then ['\\', 'n']
  else if c.toNat = 12 then ['\\', 'f']
  else if c.toNat = 13 then ['\\', 'r']
  else if c.toNat < 32 then ['\\', 'u', '0', '0', hexDigit (c.toNat / 16), hexDigit (c.toNat % 16)]
  else [c]

def escStr (s : Str) : Str := s.flatMap escChar

/-- A JSON string literal: quotes around the escaped content. -/
def jstr (s : Str) : Str := '"' :: escStr s ++ ['"']

mutual

/-- JavaScript `JSON.stringify` on this JSON model (no spacing argument). -/
def jsonStringify : Json → Str
  | .null => "null".data
  | .bool true => "true".data
  | .bool false => "false".data
  | .num n => (toString n).data
  | .str s => jstr s
  | .arr xs => '[' :: jsonStringifyArr xs ++ [']']
  | .obj fs => '\x7b' :: jsonStringifyObj fs ++ ['\x7d']

def jsonStringifyArr : List Json → Str
  | [] => []
  | [x] => jsonStringify x
  | x :: y :: xs => jsonStringify x ++ ',' :: jsonStringifyArr (y :: xs)

def jsonStringifyObj : List (Str × Json) → Str
  | [] => []
  | [f] => jstr f.1 ++ ':' :: jsonStringify f.2
  | f :: g :: fs => jstr f.1 ++ ':' :: jsonStringify f.2 ++ ',' :: jsonStringifyObj (g :: fs)

end

/-- A candidate day array together with its score. -/
structure ScoredArr where
  arr : List Json
  score : Nat

/-- Scoring of one candidate array in `tryExtractNextLunchFromRoot`:
`uniqDates.size * 10 + lunchHits * 5` (the date map-then-filter is fused). -/
def scoreArr (mealRe : Str → Bool) (xs : List Json) : Nat :=
  (dedupStr (xs.filterMap extractDateFromObject)).length * 10 +
    (xs.countP (fun o => mealRe (jsonStringify o))) * 5

/-- The date-bearing day objects paired with their dates, sorted by date (the
map-then-filter of the source, fused). -/
def dayListOf (dayObjects : List Json) : List (Str × Json) :=
  sortBy (fun a b => strLe a.1 b.1)
    (dayObjects.filterMap (fun o =>
      match extractDateFromObject o with
      | some d => some (d, o)
      | none => none))

/-- Day loop of `extractFromDayObjects`: skip days before the start date; for
the first day offering a meal candidate with at least three pairs, build the
result. -/
def tryDays (fmtDate : Str → Str) (mealRe : Str → Bool) (startIso : Str) :
    List (Str × Json) → Option LunchResult
  | [] => none
  | (date, obj) :: rest =>
    if strLt date startIso then tryDays fmtDate mealRe startIso rest
    else
      match (findMealCandidates obj mealRe).findSome? (fun mealObj =>
        let pairs := extractItemPairs mealObj
        if pairs.length < 3 then none
        else
          let bs := buildSections pairs 6 3
          some (LunchResult.mk date (fmtDate date) bs.1 bs.2)) with
      | some r => some r
      | none => tryDays fmtDate mealRe startIso rest

/-- Source `extractFromDayObjects` (the closure inside
`tryExtractNextLunchFromRoot`). -/
def extractFromDayObjects (fmtDate : Str → Str) (mealRe : Str → Bool) (startIso : Str)
    (dayObjects : List Json) : Option LunchResult :=
  tryDays fmtDate mealRe startIso (dayListOf dayObjects)

/-- Final work-stack scan of `tryExtractNextLunchFromRoot`, collecting every
plain object carrying a detectable date; fuel-bounded like `itemPairsGo`. -/
def dayObjectsGo : Nat → List Json → List Json → List Json
  | _, acc, [] => acc
  | 0, acc, _ :: _ => acc
  | fuel + 1, acc, node :: rest =>
    match node with
    | .arr xs => dayObjectsGo fuel acc (xs.reverse ++ rest)
    | .obj fs =>
      let acc2 := if (extractDateFromObject (.obj fs)).isSome then acc ++ [.obj fs] else acc
      dayObjectsGo fuel acc2 ((jsonValues fs).reverse ++ rest)
    | .null => dayObjectsGo fuel acc rest
    | .bool _ => dayObjectsGo fuel acc rest
    | .num _ => dayObjectsGo fuel acc rest
    | .str _ => dayObjectsGo fuel acc rest

/-- Source `tryExtractNextLunchFromRoot`: candidate day arrays are scored and
stably sorted descending, the top five are tried, then the whole-tree scan. -/
def tryExtractNextLunchFromRoot (root : Json) (fmtDate : Str → Str)
    (mealRe : Str → Bool) (startIso : Str) : Option LunchResult :=
  let scored := sortBy (fun a b => decide (b.score ≤ a.score))
    ((findCandidateDayArrays root).map (fun xs => ScoredArr.mk xs (scoreArr mealRe xs)))
  match (scored.take 5).findSome?
      (fun c => extractFromDayObjects fmtDate mealRe startIso c.arr) with
  | some r => some r
  | none => extractFromDayObjects fmtDate mealRe startIso (dayObjectsGo (jsizeL [root]) [] [root])

/-- Source `extractNextLunch`: the structured day-map path, else the generic
fallback. -/
def extractNextLunch (root : Json) (fmtDate : Str → Str) (mealRe : Str → Bool)
    (startIso : Str) : Option LunchResult :=
  match extractNextLunchFromSageDateMap root fmtDate mealRe startIso with
  | some r => some r
  | none => tryExtractNextLunchFromRoot root fmtDate mealRe startIso

/-- One rung of the compaction ladder. -/
structure Plan where
  stationLimit : Nat
  itemsPerStation : Nat
  fallbackLimit : Nat
  stationNameMax : Nat
  itemMax : Nat
  errorMax : Nat
deriving DecidableEq

def plan1 : Plan := ⟨6, 3, 12, 28, 64, 200⟩
def plan2 : Plan := ⟨4, 3, 10, 24, 56, 190⟩
def plan3 : Plan := ⟨4, 2, 8, 20, 44, 170⟩
def plan4 : Plan := ⟨3, 2, 6, 18, 36, 150⟩
def plan5 : Plan := ⟨2, 2, 5, 16, 30, 130⟩

/-- The ladder of `compactMergeVariables`, most generous first. -/
def plans : List Plan := [plan1, plan2, plan3, plan4, plan5]

/-- Source `MAX_PAYLOAD_BYTES`. -/
def maxPayloadBytes : Nat := 1900

/-- One compacted station of the wire payload. -/
structure CompactStation where
  name : Str
  itemsJoined : Str
deriving DecidableEq

/-- JavaScript `items.join(", ")`. -/
def joinCommaSpace : List Str → Str
  | [] => []
  | [x] => x
  | x :: y :: xs => x ++ ',' :: ' ' :: joinCommaSpace (y :: xs)

/-- One item of `toCompactStations`:
`truncateText(cleanFoodName(item) ?? "", itemMax)`. -/
def compactItem (item : Str) (itemMax : Nat) : Str :=
  truncateText ((cleanFoodName item).getD []) itemMax

/-- Source `toCompactStations`.  Station names are always strings here, so the
`cleanLabel(...) ?? "Menu"` fallback for non-string names never fires (the
JavaScript `??` does not replace an empty string). -/
def toCompactStations (stations : List SectionData)
    (stationLimit itemsPerStation stationNameMax itemMax : Nat) : List CompactStation :=
  ((((stations.map (fun s => SectionData.mk
        (truncateText (cleanLabel s.name) stationNameMax)
        (((s.items.map (fun it => compactItem it itemMax)).filter
            (fun it => !it.isEmpty)).take itemsPerStation)))).filter
      (fun s => !s.items.isEmpty)).take stationLimit).map
    (fun s => CompactStation.mk s.name (joinCommaSpace s.items))

/-- The `lunch` object built by `main` (before compaction). -/
structure LunchMV where
  date : Option Str
  dateDisplay : Option Str
  note : Option Str
  sections : List SectionData
  items : List Str
deriving DecidableEq

/-- The merge-variables envelope built by `main`; the `error` field is present
exactly on the failure path. -/
structure MergeVars where
  status : Str
  updatedAtLocal : Str
  sourceUrl : Str
  error : Option Str
  lunch : LunchMV
deriving DecidableEq

/-- The `lunch` object after `applyPayloadLimits`: `sections` deleted,
`stations` appended, key order `date, date_display, note, items, stations`. -/
structure PayloadLunch where
  date : Option Str
  dateDisplay : Option Str
  note : Option Str
  items : List Str
  stations : List CompactStation
deriving DecidableEq

/-- The compacted envelope as serialized to the webhook. -/
structure Payload where
  status : Str
  updatedAtLocal : Str
  sourceUrl : Str
  error : Option Str
  lunch : PayloadLunch
deriving DecidableEq

/-- Source `applyPayloadLimits` on the envelopes `main` builds (the JSON
round-trip clone is the identity; the truthiness guard on `error` leaves an
empty error string untouched; `lunch` is always present). -/
def applyPayloadLimits (mv : MergeVars) (limits : Plan) : Payload :=
  { status := mv.status
    updatedAtLocal := mv.updatedAtLocal
    sourceUrl := mv.sourceUrl
    error := mv.error.map (fun e => if e.isEmpty then e else truncateText e limits.errorMax)
    lunch :=
      { date := mv.lunch.date
        dateDisplay := mv.lunch.dateDisplay
        note := mv.lunch.note
        items := ((mv.lunch.items.map (fun it => compactItem it limits.itemMax)).filter
            (fun it => !it.isEmpty)).take limits.fallbackLimit
        stations := toCompactStations mv.lunch.sections limits.stationLimit
            limits.itemsPerStation limits.stationNameMax limits.itemMax } }

/-- JSON rendering of a nullable string field. -/
def jnullOr : Option Str → Str
  | none => "null".data
  | some s => jstr s

/-- Comma-joined concatenation, the element separator of JSON serialization. -/
def commaJoin : List Str → Str
  | [] => []
  | [x] => x
  | x :: y :: xs => x ++ ',' :: commaJoin (y :: xs)

/-- A JSON array literal from already-serialized elements. -/
def jarr (elems : List Str) : Str := '[' :: commaJoin elems ++ [']']

/-- Serialization of one station object. -/
def serializeStation (st : CompactStation) : Str :=
  "\x7b\"name\":".data ++ jstr st.name ++ ",\"items_joined\":".data ++
    jstr st.itemsJoined ++ "\x7d".data

/-- Serialization of the compacted `lunch` object, in its JavaScript key
order. -/
def serializeLunch (l : PayloadLunch) : Str :=
  "\x7b\"date\":".data ++ jnullOr l.date ++
  ",\"date_display\":".data ++ jnullOr l.dateDisplay ++
  ",\"note\":".data ++ jnullOr l.note ++
  ",\"items\":".data ++ jarr (l.items.map jstr) ++
  ",\"stations\":".data ++ jarr (l.stations.map serializeStation) ++ "\x7d".data

/-- Serialization of the compacted envelope, in its JavaScript key order (the
`error` key is present exactly on the failure path). -/
def serializePayload (p : Payload) : Str :=
  "\x7b\"status\":".data ++ jstr p.status ++
  ",\"updated_at_local\":".data ++ jstr p.updatedAtLocal ++
  ",\"source_url\":".data ++ jstr p.sourceUrl ++
  (match p.error with
   | none => []
   | some e => ",\"error\":".data ++ jstr e) ++
  ",\"lunch\":".data ++ serializeLunch p.lunch ++ "\x7d".data

/-- The wire envelope of `payloadBytes`: `{ merge_variables: ... }`. -/
def serializeEnvelope (p : Payload) : Str :=
  "\x7b\"merge_variables\":".data ++ serializePayload p ++ "\x7d".data

/-- UTF-8 byte width of one scalar value. -/
def charUtf8Len (c : Char) : Nat :=
  if c.toNat < 0x80 then 1 else if c.toNat < 0x800 then 2
  else if c.toNat < 0x10000 then 3 else 4

/-- UTF-8 byte length of a string, `Buffer.byteLength(s, "utf8")`. -/
def utf8Len (s : Str) : Nat := (s.map charUtf8Len).sum

/-- Source `payloadBytes`. -/
def payloadBytes (p : Payload) : Nat := utf8Len (serializeEnvelope p)

/-- Character count of the serialized envelope (UTF-16 code units on this
repertoire). -/
def payloadChars (p : Payload) : Nat := (serializeEnvelope p).length

/-- Result record of `compactMergeVariables`. -/
structure Compacted where
  mergeVariables : Payload
  bytes : Nat
  plan : Plan
deriving DecidableEq

def mkCandidate (mv : MergeVars) (p : Plan) : Compacted :=
  let c := applyPayloadLimits mv p
  ⟨c, payloadBytes c, p⟩

/-- Loop of `compactMergeVariables`: the first fitting plan wins, otherwise the
last candidate tried is kept. -/
def compactGo (mv : MergeVars) (p : Plan) (rest : List Plan) : Compacted :=
  let c := mkCandidate mv p
  if c.bytes ≤ maxPayloadBytes then c
  else
    match rest with
    | [] => c
    | q :: qs => compactGo mv q qs

/-- Source `compactMergeVariables` (the ladder is non-empty, so the JavaScript
`last` accumulator is modeled by returning the final candidate tried). -/
def compactMergeVariables (mv : MergeVars) : Compacted :=
  compactGo mv plan1 [plan2, plan3, plan4, plan5]

/-- Outcome of one run of `main` after the fetch: the payload posted to the
webhook and the failure exit flag. -/
structure RunOutcome where
  delivered : Payload
  bytes : Nat
  exitOne : Bool
deriving DecidableEq

/-- The success merge variables of `main`. -/
def mkSuccessMV (updatedAtLocal sourceUrl todayIso : Str) (l : LunchResult) : MergeVars :=
  { status := "ok".data
    updatedAtLocal := updatedAtLocal
    sourceUrl := sourceUrl
    error := none
    lunch :=
      { date := some l.date
        dateDisplay := some l.dateDisplay
        note := if l.date = todayIso then some "Today".data else none
        sections := l.sections
        items := l.items } }

/-- The error merge variables of `main`: the caught message, ANSI-stripped and
capped at `DEFAULT_ERROR_MAX_CHARS = 200`. -/
def mkErrorMV (updatedAtLocal sourceUrl : Str) (message : Str) : MergeVars :=
  { status := "error".data
    updatedAtLocal := updatedAtLocal
    sourceUrl := sourceUrl
    error := some (truncateText (stripAnsi message) 200)
    lunch := { date := none, dateDisplay := none, note := none, sections := [], items := [] } }

/-- The merge variables `main` builds from the fetch outcome. -/
def mainMergeVars (updatedAtLocal sourceUrl todayIso : Str)
    (outcome : Except Str LunchResult) : MergeVars :=
  match outcome with
  | .ok l => mkSuccessMV updatedAtLocal sourceUrl todayIso l
  | .error e => mkErrorMV updatedAtLocal sourceUrl e

/-- Pure tail of `main` after the fetch: build merge variables from the fetch
outcome (extracted lunch, or the message of the caught error), compact, post
the compacted merge variables, and set the exit flag on error status or
oversize. -/
def mainRun (updatedAtLocal sourceUrl todayIso : Str)
    (outcome : Except Str LunchResult) : RunOutcome :=
  let mv := mainMergeVars updatedAtLocal sourceUrl todayIso outcome
  let compacted := compactMergeVariables mv
  ⟨compacted.mergeVariables, compacted.bytes,
    !(compacted.mergeVariables.status == "ok".data) || decide (maxPayloadBytes < compacted.bytes)⟩

/-! Generic lemmas about the stable sort model. -/

theorem mem_insertLe {le : α → α → Bool} {x a : α} :
    ∀ {l : List α}, a ∈ insertLe le x l ↔ a = x ∨ a ∈ l := by
  intro l
  induction l with
  | nil => simp [insertLe]
  | cons y ys ih =>
    simp only [insertLe]
    split
    · simp
    · simp only [List.mem_cons, ih]
      tauto

theorem mem_sortBy {le : α → α → Bool} {a : α} :
    ∀ {l : List α}, a ∈ sortBy le l ↔ a ∈ l := by
  intro l
  induction l with
  | nil => simp [sortBy]
  | cons x xs ih => simp [sortBy, mem_insertLe, ih]

theorem insertLe_pairwise {le : α → α → Bool}
    (htot : ∀ a b, le a b = true ∨ le b a = true)
    (htrans : ∀ a b c, le a b = true → le b c = true → le a c = true)
    (x : α) :
    ∀ {l : List α}, l.Pairwise (fun a b => le a b = true) →
      (insertLe le x l).Pairwise (fun a b => le a b = true) := by
  intro l
  induction l with
  | nil => simp [insertLe]
  | cons y ys ih =>
    intro hp
    rw [List.pairwise_cons] at hp
    obtain ⟨hy, hys⟩ := hp
    simp only [insertLe]
    split
    · rename_i hxy
      rw [List.pairwise_cons]
      refine ⟨?_, List.pairwise_cons.mpr ⟨hy, hys⟩⟩
      intro b hb
      rcases List.mem_cons.mp hb with hb | hb
      · exact hb ▸ hxy
      · exact htrans x y b hxy (hy b hb)
    · rename_i hxy
      rw [List.pairwise_cons]
      constructor
      · intro b hb
        rcases mem_insertLe.mp hb with hb | hb
        · rw [hb]
          rcases htot x y with h | h
          · exact absurd h hxy
          · exact h
        · exact hy b hb
      · exact ih hys

theorem sortBy_pairwise {le : α → α → Bool}
    (htot : ∀ a b, le a b = true ∨ le b a = true)
    (htrans : ∀ a b c, le a b = true → le b c = true → le a c = true) :
    ∀ (l : List α), (sortBy le l).Pairwise (fun a b => le a b = true) := by
  intro l
  induction l with
  | nil => simp [sortBy]
  | cons x xs ih => exact insertLe_pairwise htot htrans x ih

theorem filter_insertLe {le : α → α → Bool} {p : α → Bool} {x : α}
    (h : ∀ y, p x = true → le x y = false → p y = false) :
    ∀ (l : List α),
      (insertLe le x l).filter p = if p x then x :: l.filter p else l.filter p := by
  intro l
  induction l with
  | nil => cases hpx : p x <;> simp [insertLe, List.filter, hpx]
  | cons y ys ih =>
    simp only [insertLe]
    split
    · rename_i hxy
      cases hpx : p x <;> cases hpy : p y <;>
        simp [List.filter_cons, hpx, hpy]
    · rename_i hxy
      have hxy2 : le x y = false := by
        cases hle : le x y
        · rfl
        · exact absurd hle hxy
      cases hpx : p x with
      | true =>
        have hpy : p y = false := h y hpx hxy2
        simp [List.filter_cons, hpy, ih, hpx]
      | false => simp [List.filter_cons, ih, hpx]

theorem filter_sortBy {le : α → α → Bool} {p : α → Bool}
    (h : ∀ x y, p x = true → le x y = false → p y = false) :
    ∀ (l : List α), (sortBy le l).filter p = l.filter p := by
  intro l
  induction l with
  | nil => simp [sortBy]
  | cons x xs ih =>
    simp only [sortBy, filter_insertLe (h x), ih, List.filter_cons]

/-! Order facts for the string comparator. -/

theorem strLt_asymm : ∀ (a b : Str), strLt a b = true → strLt b a = false := by
  intro a
  induction a with
  | nil =>
    intro b h
    cases b with
    | nil => simp [strLt] at h
    | cons y ys => simp [strLt]
  | cons x xs ih =>
    intro b h
    cases b with
    | nil => simp [strLt] at h
    | cons y ys =>
      simp only [strLt] at h ⊢
      by_cases hxy : x.toNat < y.toNat
      · simp only [if_pos hxy]
        have hyx : ¬ y.toNat < x.toNat := by omega
        simp [if_neg hyx, hxy]
      · by_cases hyx : y.toNat < x.toNat
        · simp [hxy, hyx] at h
        · simp only [if_neg hxy, if_neg hyx] at h ⊢
          exact ih ys h

theorem strLe_total : ∀ (a b : Str), strLe a b = true ∨ strLe b a = true := by
  intro a b
  unfold strLe
  cases h1 : strLt b a
  · left; rfl
  · right
    rw [strLt_asymm b a h1]
    rfl

theorem strLt_false_trans :
    ∀ (a b c : Str), strLt b a = false → strLt c b = false → strLt c a = false := by
  intro a
  induction a with
  | nil =>
    intro b c h1 h2
    cases c <;> cases b <;> simp_all [strLt]
  | cons x xs ih =>
    intro b c h1 h2
    cases b with
    | nil => simp [strLt] at h1
    | cons y ys =>
      cases c with
      | nil => simp [strLt] at h2
      | cons z zs =>
        simp only [strLt] at h1 h2 ⊢
        by_cases hyx : y.toNat < x.toNat
        · simp [hyx] at h1
        · by_cases hzy : z.toNat < y.toNat
          · simp [hzy] at h2
          · have hzx : ¬ z.toNat < x.toNat := by omega
            simp only [if_neg hyx, if_neg hzy, if_neg hzx] at h1 h2 ⊢
            by_cases hxz : x.toNat < z.toNat
            · simp [hxz]
            · have hxy : ¬ x.toNat < y.toNat := by omega
              have hyz : ¬ y.toNat < z.toNat := by omega
              simp only [if_neg hxy] at h1
              simp only [if_neg hyz] at h2
              simp only [if_neg hxz]
              exact ih ys zs h1 h2

theorem strLe_trans :
    ∀ (a b c : Str), strLe a b = true → strLe b c = true → strLe a c = true := by
  intro a b c h1 h2
  unfold strLe at h1 h2 ⊢
  cases hba : strLt b a
  · cases hcb : strLt c b
    · rw [strLt_false_trans a b c hba hcb]
      rfl
    · rw [hcb] at h2
      exact absurd h2 (by simp)
  · rw [hba] at h1
    exact absurd h1 (by simp)

/-! Grouping facts for `buildSections`. -/

/-- The truthy section labels of the pair list, in encounter order. -/
def truthySections (pairs : List ItemPair) : List Str :=
  pairs.filterMap (fun p =>
    match p.sect with
    | some s => if s.isEmpty then none else some s
    | none => none)

theorem addToGroup_names :
    ∀ (groups : List SectionData) (s nm : Str),
      (addToGroup groups s nm).map SectionData.name =
        if s ∈ groups.map SectionData.name then groups.map SectionData.name
        else groups.map SectionData.name ++ [s] := by
  intro groups
  induction groups with
  | nil => intro s nm; simp [addToGroup]
  | cons g rest ih =>
    intro s nm
    simp only [addToGroup]
    by_cases hg : g.name = s
    · simp [hg]
    · have hne : ¬ s = g.name := fun h => hg h.symm
      simp only [if_neg hg, List.map_cons, ih, List.mem_cons, hne, false_or]
      split <;> simp

theorem dedupStrGo_congr :
    ∀ (l : List Str) (s1 s2 : List Str), (∀ x, x ∈ s1 ↔ x ∈ s2) →
      dedupStrGo s1 l = dedupStrGo s2 l := by
  intro l
  induction l with
  | nil => intro s1 s2 h; rfl
  | cons x xs ih =>
    intro s1 s2 h
    simp only [dedupStrGo]
    by_cases hx : x ∈ s1
    · rw [if_pos hx, if_pos ((h x).mp hx)]
      exact ih s1 s2 h
    · rw [if_neg hx, if_neg (fun hc => hx ((h x).mpr hc))]
      refine congrArg _ (ih _ _ ?_)
      intro z
      simp only [List.mem_cons]
      exact or_congr Iff.rfl (h z)

theorem groupPairsGo_names :
    ∀ (ps : List ItemPair) (groups : List SectionData) (ns : List Str),
      (groupPairsGo groups ns ps).1.map SectionData.name =
        groups.map SectionData.name ++
          dedupStrGo (groups.map SectionData.name) (truthySections ps) := by
  intro ps
  induction ps with
  | nil => intro groups ns; simp [groupPairsGo, dedupStrGo, truthySections]
  | cons p ps ih =>
    intro groups ns
    match hp : p.sect with
    | none =>
      simp only [groupPairsGo, hp, ih]
      simp [truthySections, List.filterMap_cons, hp]
    | some s =>
      by_cases hs : s.isEmpty
      · have hs2 : s = [] := by simpa [List.isEmpty_iff] using hs
        simp only [groupPairsGo, hp, if_pos hs, ih]
        simp [truthySections, List.filterMap_cons, hp, hs2]
      · have hs2 : ¬ s = [] := by simpa [List.isEmpty_iff] using hs
        simp only [groupPairsGo, hp, if_neg hs, ih]
        have hts : truthySections (p :: ps) = s :: truthySections ps := by
          simp [truthySections, List.filterMap_cons, hp, hs2]
        rw [hts, addToGroup_names]
        by_cases hmem : s ∈ groups.map SectionData.name
        · simp only [if_pos hmem, dedupStrGo, if_pos hmem]
        · simp only [if_neg hmem, dedupStrGo, if_neg hmem]
          rw [dedupStrGo_congr (truthySections ps)
                (groups.map SectionData.name ++ [s]) (s :: groups.map SectionData.name)
                (by intro z; simp [List.mem_append, List.mem_cons, or_comm])]
          simp

theorem sectionLe_total : ∀ (a b : SectionData), sectionLe a b = true ∨ sectionLe b a = true := by
  intro a b
  simp only [sectionLe, decide_eq_true_eq]
  omega

theorem sectionLe_trans :
    ∀ (a b c : SectionData), sectionLe a b = true → sectionLe b c = true →
      sectionLe a c = true := by
  intro a b c
  simp only [sectionLe, decide_eq_true_eq]
  omega

/-- CLAIM C6.  For every pair list, `buildSections` caps the stably sorted
section list; the sorted list is ordered by deduplicated item count
descending; sections of equal deduplicated count keep their relative order
from the first-encounter section list; and the first-encounter section list
carries the section labels in the order they first occur among the pairs. -/
theorem c6_buildSections_sorted_stable :
    ∀ (pairs : List ItemPair) (sectionLimit itemsPerSection : Nat),
      (buildSections pairs sectionLimit itemsPerSection).1 =
        ((sortedSections pairs).take sectionLimit).map
          (fun s => ⟨s.name, s.items.take itemsPerSection⟩) ∧
      (sortedSections pairs).Pairwise (fun a b => b.items.length ≤ a.items.length) ∧
      (∀ c : Nat, (sortedSections pairs).filter (fun s => s.items.length == c) =
        (groupedSections pairs).filter (fun s => s.items.length == c)) ∧
      (groupedSections pairs).map SectionData.name = dedupStr (truthySections pairs) := by
  intro pairs sectionLimit itemsPerSection
  refine ⟨rfl, ?_, ?_, ?_⟩
  · have := sortBy_pairwise sectionLe_total sectionLe_trans (groupedSections pairs)
    exact this.imp (fun h => by simpa [sectionLe, decide_eq_true_eq] using h)
  · intro c
    refine filter_sortBy ?_ (groupedSections pairs)
    intro x y hx hxy
    simp only [beq_iff_eq] at hx ⊢
    simp only [sectionLe, decide_eq_false_iff_not] at hxy
    simp only [beq_eq_false_iff_ne, ne_eq]
    omega
  · simpa [groupedSections, groupPairs, dedupStr, List.map_map] using
      groupPairsGo_names pairs [] []

/-! Non-emptiness facts for sections. -/

theorem addToGroup_items_ne_nil {groups : List SectionData} {s nm : Str}
    (h : ∀ g ∈ groups, g.items ≠ []) :
    ∀ g ∈ addToGroup groups s nm, g.items ≠ [] := by
  induction groups with
  | nil =>
    intro g hg
    simp only [addToGroup, List.mem_singleton] at hg
    subst hg
    simp
  | cons g0 rest ih =>
    intro g hg
    simp only [addToGroup] at hg
    split at hg
    · rcases List.mem_cons.mp hg with hg | hg
      · subst hg
        simp
      · exact h g (List.mem_cons_of_mem _ hg)
    · rcases List.mem_cons.mp hg with hg | hg
      · exact hg ▸ h g0 (List.mem_cons_self _ _)
      · exact ih (fun g2 hg2 => h g2 (List.mem_cons_of_mem _ hg2)) g hg

theorem groupPairsGo_items_ne_nil :
    ∀ (ps : List ItemPair) (groups : List SectionData) (ns : List Str),
      (∀ g ∈ groups, g.items ≠ []) →
      ∀ g ∈ (groupPairsGo groups ns ps).1, g.items ≠ [] := by
  intro ps
  induction ps with
  | nil => intro groups ns h; exact h
  | cons p ps ih =>
    intro groups ns h
    cases hp : p.sect with
    | none =>
      have e : groupPairsGo groups ns (p :: ps) = groupPairsGo groups (ns ++ [p.name]) ps := by
        simp only [groupPairsGo, hp]
      rw [e]
      exact ih groups _ h
    | some s =>
      by_cases hs : s.isEmpty = true
      · have e : groupPairsGo groups ns (p :: ps) = groupPairsGo groups (ns ++ [p.name]) ps := by
          simp only [groupPairsGo, hp, if_pos hs]
        rw [e]
        exact ih groups _ h
      · have e : groupPairsGo groups ns (p :: ps) =
            groupPairsGo (addToGroup groups s p.name) ns ps := by
          simp only [groupPairsGo, hp, if_neg hs]
        rw [e]
        exact ih _ ns (addToGroup_items_ne_nil h)

theorem dedupStr_ne_nil {l : List Str} (h : l ≠ []) : dedupStr l ≠ [] := by
  cases l with
  | nil => exact absurd rfl h
  | cons x xs => simp [dedupStr, dedupStrGo]

theorem take_ne_nil_of_pos {α : Type} {l : List α} {n : Nat} (h : l ≠ []) (hn : 0 < n) :
    l.take n ≠ [] := by
  cases l with
  | nil => exact absurd rfl h
  | cons x xs =>
    cases n with
    | zero => omega
    | succ m => simp

theorem joinCommaSpace_ne_nil :
    ∀ (l : List Str), l ≠ [] → (∀ x ∈ l, x ≠ []) → joinCommaSpace l ≠ [] := by
  intro l hl hx
  match l with
  | [x] =>
    simpa [joinCommaSpace] using hx x (by simp)
  | x :: y :: xs =>
    simp [joinCommaSpace]

/-- CLAIM C9.  Sections in the output of `buildSections` (at its default caps,
the ones both call sites use) are never empty, and stations in the output of
`toCompactStations` always carry a non-empty joined item string (a station
whose items all clean or truncate away is dropped by the filter). -/
theorem c9_sections_never_empty :
    (∀ (pairs : List ItemPair) (s : SectionData),
        s ∈ (buildSections pairs 6 3).1 → s.items ≠ []) ∧
    (∀ (stations : List SectionData) (a b c d : Nat) (st : CompactStation),
        st ∈ toCompactStations stations a b c d → st.itemsJoined ≠ []) := by
  constructor
  · intro pairs s hs
    simp only [buildSections, List.mem_map] at hs
    obtain ⟨s1, hs1, heq⟩ := hs
    have hs1m : s1 ∈ sortedSections pairs := List.take_subset _ _ hs1
    have hs1g : s1 ∈ groupedSections pairs := mem_sortBy.mp hs1m
    simp only [groupedSections, List.mem_map] at hs1g
    obtain ⟨g, hg, hgeq⟩ := hs1g
    have hgne : g.items ≠ [] :=
      groupPairsGo_items_ne_nil pairs [] [] (by intro g2 hg2; simp at hg2) g hg
    have hd : dedupStr g.items ≠ [] := dedupStr_ne_nil hgne
    have hs1ne : s1.items ≠ [] := by
      rw [← hgeq]
      exact hd
    rw [← heq]
    exact take_ne_nil_of_pos hs1ne (by omega)
  · intro stations a b c d st hst
    simp only [toCompactStations, List.mem_map] at hst
    obtain ⟨s1, hs1, heq⟩ := hst
    have hs1f := List.take_subset _ _ hs1
    have hs1mem := List.mem_filter.mp hs1f
    obtain ⟨hs1map, hs1keep⟩ := hs1mem
    have hne : s1.items ≠ [] := by
      simpa [List.isEmpty_iff] using hs1keep
    have hxne : ∀ x ∈ s1.items, x ≠ [] := by
      simp only [List.mem_map] at hs1map
      obtain ⟨s0, hs0, hs0eq⟩ := hs1map
      intro x hx
      rw [← hs0eq] at hx
      simp only at hx
      have hx2 := List.take_subset _ _ hx
      have hx3 := List.mem_filter.mp hx2
      simpa [List.isEmpty_iff] using hx3.2
    rw [← heq]
    exact joinCommaSpace_ne_nil s1.items hne hxne

/-- Witness for C9: a concrete section surviving `buildSections` is non-empty,
and a concrete station surviving `toCompactStations` has a non-empty joined
item string. -/
theorem c9_sections_never_empty_witness :
    (SectionData.mk "A".data ["xy".data]).items ≠ [] ∧
    (CompactStation.mk "A".data "xy".data).itemsJoined ≠ [] :=
  ⟨c9_sections_never_empty.1 [ItemPair.mk "xy".data (some "A".data)]
      (SectionData.mk "A".data ["xy".data]) (by decide),
   c9_sections_never_empty.2 [SectionData.mk "A".data ["xy".data]] 6 3 28 64
      (CompactStation.mk "A".data "xy".data) (by decide)⟩

/-! Selection facts for the day-map extraction (claim C4). -/

/-- Qualification test of the `sageLoop` selection: at or after the start date,
and yielding at least one lunch pair. -/
def sageQualifies (mealRe : Str → Bool) (startIso : Str) (e : DateEntry) : Bool :=
  !strLt e.iso startIso &&
    (match e.value with
     | .obj fs => !(extractLunchPairsFromSageDay fs mealRe).isEmpty
     | _ => false)

/-- The result built from a selected day-map entry. -/
def mkSageResult (fmtDate : Str → Str) (mealRe : Str → Bool) (e : DateEntry) : LunchResult :=
  match e.value with
  | .obj fs =>
    let bs := buildSections (extractLunchPairsFromSageDay fs mealRe) 6 3
    ⟨e.iso, fmtDate e.iso, bs.1, bs.2⟩
  | _ => ⟨e.iso, fmtDate e.iso, [], []⟩

theorem sageLoop_eq_find :
    ∀ (fmtDate : Str → Str) (mealRe : Str → Bool) (startIso : Str) (entries : List DateEntry),
      sageLoop fmtDate mealRe startIso entries =
        (entries.find? (sageQualifies mealRe startIso)).map (mkSageResult fmtDate mealRe) := by
  intro fmtDate mealRe startIso entries
  induction entries with
  | nil => rfl
  | cons e rest ih =>
    obtain ⟨iso, v⟩ := e
    rw [List.find?_cons]
    cases v with
    | obj fs =>
      have step : sageLoop fmtDate mealRe startIso (⟨iso, Json.obj fs⟩ :: rest) =
          (if strLt iso startIso then sageLoop fmtDate mealRe startIso rest
           else if (extractLunchPairsFromSageDay fs mealRe).isEmpty then
             sageLoop fmtDate mealRe startIso rest
           else some ⟨iso, fmtDate iso,
             (buildSections (extractLunchPairsFromSageDay fs mealRe) 6 3).1,
             (buildSections (extractLunchPairsFromSageDay fs mealRe) 6 3).2⟩) := rfl
      have qstep : sageQualifies mealRe startIso ⟨iso, Json.obj fs⟩ =
          (!strLt iso startIso && !(extractLunchPairsFromSageDay fs mealRe).isEmpty) := rfl
      rw [step, qstep]
      cases hlt : strLt iso startIso with
      | true =>
        rw [if_pos rfl]
        simpa using ih
      | false =>
        rw [if_neg (by simp)]
        cases hp : (extractLunchPairsFromSageDay fs mealRe).isEmpty with
        | true =>
          rw [if_pos rfl]
          simpa using ih
        | false =>
          rw [if_neg (by simp)]
          rfl
    | null =>
      have step : sageLoop fmtDate mealRe startIso (⟨iso, Json.null⟩ :: rest) =
          (if strLt iso startIso then sageLoop fmtDate mealRe startIso rest
           else sageLoop fmtDate mealRe startIso rest) := rfl
      have qstep : sageQualifies mealRe startIso ⟨iso, Json.null⟩ =
          (!strLt iso startIso && false) := rfl
      rw [step, qstep, ite_self]
      simpa using ih
    | bool b =>
      have step : sageLoop fmtDate mealRe startIso (⟨iso, Json.bool b⟩ :: rest) =
          (if strLt iso startIso then sageLoop fmtDate mealRe startIso rest
           else sageLoop fmtDate mealRe startIso rest) := rfl
      have qstep : sageQualifies mealRe startIso ⟨iso, Json.bool b⟩ =
          (!strLt iso startIso && false) := rfl
      rw [step, qstep, ite_self]
      simpa using ih
    | num n =>
      have step : sageLoop fmtDate mealRe startIso (⟨iso, Json.num n⟩ :: rest) =
          (if strLt iso startIso then sageLoop fmtDate mealRe startIso rest
           else sageLoop fmtDate mealRe startIso rest) := rfl
      have qstep : sageQualifies mealRe startIso ⟨iso, Json.num n⟩ =
          (!strLt iso startIso && false) := rfl
      rw [step, qstep, ite_self]
      simpa using ih
    | str s =>
      have step : sageLoop fmtDate mealRe startIso (⟨iso, Json.str s⟩ :: rest) =
          (if strLt iso startIso then sageLoop fmtDate mealRe startIso rest
           else sageLoop fmtDate mealRe startIso rest) := rfl
      have qstep : sageQualifies mealRe startIso ⟨iso, Json.str s⟩ =
          (!strLt iso startIso && false) := rfl
      rw [step, qstep, ite_self]
      simpa using ih
    | arr xs =>
      have step : sageLoop fmtDate mealRe startIso (⟨iso, Json.arr xs⟩ :: rest) =
          (if strLt iso startIso then sageLoop fmtDate mealRe startIso rest
           else sageLoop fmtDate mealRe startIso rest) := rfl
      have qstep : sageQualifies mealRe startIso ⟨iso, Json.arr xs⟩ =
          (!strLt iso startIso && false) := rfl
      rw [step, qstep, ite_self]
      simpa using ih

/-- CLAIM C4 (amended).  The date-bearing entries of the day map are stably
sorted by their ISO strings, and the function selects the FIRST sorted entry
that is at or after the start date AND yields at least one lunch pair —
at-or-after entries yielding no pairs are skipped, not selected. -/
theorem c4_daymap_sorted_first_qualifying :
    ∀ (fs : List (Str × Json)) (fmtDate : Str → Str) (mealRe : Str → Bool) (startIso : Str),
      (dateEntries fs).Pairwise (fun a b => strLe a.iso b.iso = true) ∧
      extractNextLunchFromSageDateMap (.obj fs) fmtDate mealRe startIso =
        ((dateEntries fs).find? (sageQualifies mealRe startIso)).map
          (mkSageResult fmtDate mealRe) := by
  intro fs fmtDate mealRe startIso
  constructor
  · exact sortBy_pairwise (fun (a b : DateEntry) => strLe_total a.iso b.iso)
      (fun (a b c : DateEntry) => strLe_trans a.iso b.iso c.iso) _
  · show (if (dateEntries fs).isEmpty then none
        else sageLoop fmtDate mealRe startIso (dateEntries fs)) = _
    cases he : (dateEntries fs).isEmpty with
    | true =>
      have : dateEntries fs = [] := by simpa [List.isEmpty_iff] using he
      simp [this]
    | false =>
      rw [if_neg (by simp [he])]
      exact sageLoop_eq_find fmtDate mealRe startIso (dateEntries fs)

/-- Concrete meal predicate for the C4 counterexample. -/
def c4MealRe (s : Str) : Bool := s == "Lunch".data

def c4Item (nm cat : Str) : Json :=
  .obj [("name".data, .str nm), ("meal".data, .str "Lunch".data),
        ("displayCategory".data, .str cat)]

/-- Day map with an at-or-after day that yields no pairs, followed by one that
does. -/
def c4Fields : List (Str × Json) :=
  [("02/10/2026".data, .obj []),
   ("02/11/2026".data, .obj [("Lunch".data,
      .arr [c4Item "Pizza".data "Entrees".data, c4Item "Salad".data "Sides".data])])]

/-- CLAIM C4 (counterexample).  The first sorted date-bearing entry,
2026-02-10, is at (hence at-or-after) the start date 2026-02-10, yet the
function selects the 2026-02-11 record, because the first record yields no
pairs — refuting "selects the first record whose date is at or after the
start date". -/
theorem c4_counterexample :
    (dateEntries c4Fields).map DateEntry.iso =
      ["2026-02-10".data, "2026-02-11".data] ∧
    strLt "2026-02-10".data "2026-02-10".data = false ∧
    (extractNextLunchFromSageDateMap (.obj c4Fields) (fun s => s) c4MealRe
        "2026-02-10".data).map LunchResult.date = some "2026-02-11".data := by
  refine ⟨by decide, by decide, by decide⟩

/-! Deduplication facts for the extractors (claim C5). -/

/-- The dedup key of an item pair. -/
def pairKeyOf (p : ItemPair) : Str := pairKey p.name p.sect

/-- First-occurrence deduplication by the joined key, exactly the `seen`-set
discipline shared by both extractors. -/
def dedupByKey (seen : List Str) : List ItemPair → List ItemPair
  | [] => []
  | p :: ps =>
    if pairKeyOf p ∈ seen then dedupByKey seen ps
    else p :: dedupByKey (pairKeyOf p :: seen) ps

/-- The candidate stream of `extractItemPairs`: the same traversal with no
`seen`-set, emitting every qualifying node's pair in visitation order. -/
def itemPairsAll : Nat → List Json → List ItemPair
  | _, [] => []
  | 0, _ :: _ => []
  | fuel + 1, node :: rest =>
    match node with
    | .arr xs => itemPairsAll fuel (xs.reverse ++ rest)
    | .obj fs =>
      let stack2 := (jsonValues fs).reverse ++ rest
      if looksContainer fs then itemPairsAll fuel stack2
      else
        match cleanFoodNameO (getFirstString fs nameKeys) with
        | none => itemPairsAll fuel stack2
        | some name =>
          ⟨name, normalizeSectionName (getFirstString fs sectionKeys) none⟩ ::
            itemPairsAll fuel stack2
    | .null => itemPairsAll fuel rest
    | .bool _ => itemPairsAll fuel rest
    | .num _ => itemPairsAll fuel rest
    | .str _ => itemPairsAll fuel rest

theorem itemPairsGo_eq_dedup :
    ∀ (fuel : Nat) (stack : List Json) (seen : List Str) (pairs : List ItemPair),
      itemPairsGo fuel seen pairs stack = pairs ++ dedupByKey seen (itemPairsAll fuel stack) := by
  intro fuel
  induction fuel with
  | zero =>
    intro stack seen pairs
    cases stack <;> simp [itemPairsGo, itemPairsAll, dedupByKey]
  | succ fuel ih =>
    intro stack seen pairs
    cases stack with
    | nil => simp [itemPairsGo, itemPairsAll, dedupByKey]
    | cons node rest =>
      cases node with
      | arr xs =>
        show itemPairsGo fuel seen pairs (xs.reverse ++ rest) =
          pairs ++ dedupByKey seen (itemPairsAll fuel (xs.reverse ++ rest))
        exact ih _ seen pairs
      | obj fs =>
        show (if looksContainer fs then
                itemPairsGo fuel seen pairs ((jsonValues fs).reverse ++ rest)
              else _) = pairs ++ dedupByKey seen
                (if looksContainer fs then itemPairsAll fuel ((jsonValues fs).reverse ++ rest)
                 else _)
        cases hc : looksContainer fs with
        | true =>
          rw [if_pos rfl, if_pos rfl]
          exact ih _ seen pairs
        | false =>
          rw [if_neg (by simp), if_neg (by simp)]
          cases hn : cleanFoodNameO (getFirstString fs nameKeys) with
          | none => exact ih _ seen pairs
          | some name =>
            show (if pairKey name (normalizeSectionName (getFirstString fs sectionKeys) none) ∈ seen
                then itemPairsGo fuel seen pairs ((jsonValues fs).reverse ++ rest)
                else itemPairsGo fuel
                  (pairKey name (normalizeSectionName (getFirstString fs sectionKeys) none) :: seen)
                  (pairs ++ [⟨name, normalizeSectionName (getFirstString fs sectionKeys) none⟩])
                  ((jsonValues fs).reverse ++ rest)) =
              pairs ++ dedupByKey seen
                (⟨name, normalizeSectionName (getFirstString fs sectionKeys) none⟩ ::
                  itemPairsAll fuel ((jsonValues fs).reverse ++ rest))
            rw [show dedupByKey seen
                (⟨name, normalizeSectionName (getFirstString fs sectionKeys) none⟩ ::
                  itemPairsAll fuel ((jsonValues fs).reverse ++ rest)) =
              (if pairKey name (normalizeSectionName (getFirstString fs sectionKeys) none) ∈ seen
               then dedupByKey seen (itemPairsAll fuel ((jsonValues fs).reverse ++ rest))
               else ⟨name, normalizeSectionName (getFirstString fs sectionKeys) none⟩ ::
                 dedupByKey
                   (pairKey name (normalizeSectionName (getFirstString fs sectionKeys) none) :: seen)
                   (itemPairsAll fuel ((jsonValues fs).reverse ++ rest))) from rfl]
            by_cases hk : pairKey name (normalizeSectionName (getFirstString fs sectionKeys) none) ∈ seen
            · rw [if_pos hk, if_pos hk]
              exact ih _ seen pairs
            · rw [if_neg hk, if_neg hk, ih _ _ (pairs ++ [_])]
              simp
      | null =>
        show itemPairsGo fuel seen pairs rest = pairs ++ dedupByKey seen (itemPairsAll fuel rest)
        exact ih _ seen pairs
      | bool b =>
        show itemPairsGo fuel seen pairs rest = pairs ++ dedupByKey seen (itemPairsAll fuel rest)
        exact ih _ seen pairs
      | num n =>
        show itemPairsGo fuel seen pairs rest = pairs ++ dedupByKey seen (itemPairsAll fuel rest)
        exact ih _ seen pairs
      | str s =>
        show itemPairsGo fuel seen pairs rest = pairs ++ dedupByKey seen (itemPairsAll fuel rest)
        exact ih _ seen pairs

theorem dedupByKey_key_not_mem :
    ∀ (l : List ItemPair) (seen : List Str) (p : ItemPair),
      p ∈ dedupByKey seen l → pairKeyOf p ∉ seen := by
  intro l
  induction l with
  | nil => intro seen p hp; simp [dedupByKey] at hp
  | cons q qs ih =>
    intro seen p hp
    simp only [dedupByKey] at hp
    split at hp
    · exact ih seen p hp
    · rcases List.mem_cons.mp hp with hp | hp
      · subst hp
        rename_i hq
        exact hq
      · intro hmem
        exact ih _ p hp (List.mem_cons_of_mem _ hmem)

theorem dedupByKey_pairwise :
    ∀ (l : List ItemPair) (seen : List Str),
      (dedupByKey seen l).Pairwise (fun p q => pairKeyOf p ≠ pairKeyOf q) := by
  intro l
  induction l with
  | nil => intro seen; simp [dedupByKey]
  | cons q qs ih =>
    intro seen
    simp only [dedupByKey]
    split
    · exact ih seen
    · rw [List.pairwise_cons]
      constructor
      · intro p hp heq
        have := dedupByKey_key_not_mem qs _ p hp
        exact this (heq ▸ List.mem_cons_self _ _)
      · exact ih _

/-- Candidate stream of one category array in `extractLunchPairsFromSageDay`
(no `seen`-set). -/
def lunchPairsItemsAll (mealRe : Str → Bool) (categoryKey : Str) : List Json → List ItemPair
  | [] => []
  | item :: rest =>
    match item with
    | .obj fs =>
      if hasStringValueMatching fs mealRe then
        match cleanFoodNameO (getFirstString fs nameKeys) with
        | none => lunchPairsItemsAll mealRe categoryKey rest
        | some name =>
          ⟨name, normalizeSectionName (getFirstString fs sectionKeys) (some categoryKey)⟩ ::
            lunchPairsItemsAll mealRe categoryKey rest
      else lunchPairsItemsAll mealRe categoryKey rest
    | _ => lunchPairsItemsAll mealRe categoryKey rest

/-- Candidate stream of `extractLunchPairsFromSageDay` over all categories. -/
def lunchPairsAll (mealRe : Str → Bool) : List (Str × Json) → List ItemPair
  | [] => []
  | (categoryKey, categoryValue) :: rest =>
    match categoryValue with
    | .arr items => lunchPairsItemsAll mealRe categoryKey items ++ lunchPairsAll mealRe rest
    | _ => lunchPairsAll mealRe rest

/-- The `seen`-set after deduplicating a stream. -/
def dedupSeenAfter (seen : List Str) : List ItemPair → List Str
  | [] => seen
  | p :: ps => dedupSeenAfter (if pairKeyOf p ∈ seen then seen else pairKeyOf p :: seen) ps

theorem dedupByKey_append :
    ∀ (a : List ItemPair) (seen : List Str) (b : List ItemPair),
      dedupByKey seen (a ++ b) =
        dedupByKey seen a ++ dedupByKey (dedupSeenAfter seen a) b := by
  intro a
  induction a with
  | nil => intro seen b; simp [dedupByKey, dedupSeenAfter]
  | cons p ps ih =>
    intro seen b
    show (if pairKeyOf p ∈ seen then dedupByKey seen (ps ++ b)
          else p :: dedupByKey (pairKeyOf p :: seen) (ps ++ b)) = _
    by_cases hk : pairKeyOf p ∈ seen
    · rw [if_pos hk, ih]
      show _ = (if pairKeyOf p ∈ seen then dedupByKey seen ps
          else p :: dedupByKey (pairKeyOf p :: seen) ps) ++
          dedupByKey (dedupSeenAfter (if pairKeyOf p ∈ seen then seen else pairKeyOf p :: seen) ps) b
      rw [if_pos hk, if_pos hk]
    · rw [if_neg hk, ih]
      show _ = (if pairKeyOf p ∈ seen then dedupByKey seen ps
          else p :: dedupByKey (pairKeyOf p :: seen) ps) ++
          dedupByKey (dedupSeenAfter (if pairKeyOf p ∈ seen then seen else pairKeyOf p :: seen) ps) b
      rw [if_neg hk, if_neg hk]
      simp

theorem lunchPairsItems_eq_dedup :
    ∀ (mealRe : Str → Bool) (categoryKey : Str) (items : List Json)
      (seen : List Str) (pairs : List ItemPair),
      lunchPairsItems mealRe categoryKey seen pairs items =
        (dedupSeenAfter seen (lunchPairsItemsAll mealRe categoryKey items),
         pairs ++ dedupByKey seen (lunchPairsItemsAll mealRe categoryKey items)) := by
  intro mealRe categoryKey items
  induction items with
  | nil => intro seen pairs; simp [lunchPairsItems, lunchPairsItemsAll, dedupSeenAfter, dedupByKey]
  | cons item rest ih =>
    intro seen pairs
    cases item with
    | obj fs =>
      show (if hasStringValueMatching fs mealRe then _ else _) = _
      cases hm : hasStringValueMatching fs mealRe with
      | false =>
        rw [if_neg (by simp)]
        show lunchPairsItems mealRe categoryKey seen pairs rest = _
        have hs : lunchPairsItemsAll mealRe categoryKey (Json.obj fs :: rest) =
            (if hasStringValueMatching fs mealRe then _ else
              lunchPairsItemsAll mealRe categoryKey rest) := rfl
        rw [hs, if_neg (by simp [hm])]
        exact ih seen pairs
      | true =>
        rw [if_pos rfl]
        have hs : lunchPairsItemsAll mealRe categoryKey (Json.obj fs :: rest) =
            (if hasStringValueMatching fs mealRe then
              (match cleanFoodNameO (getFirstString fs nameKeys) with
               | none => lunchPairsItemsAll mealRe categoryKey rest
               | some name =>
                 ⟨name, normalizeSectionName (getFirstString fs sectionKeys) (some categoryKey)⟩ ::
                   lunchPairsItemsAll mealRe categoryKey rest)
             else lunchPairsItemsAll mealRe categoryKey rest) := rfl
        rw [hs, if_pos (by simp [hm])]
        cases hn : cleanFoodNameO (getFirstString fs nameKeys) with
        | none => exact ih seen pairs
        | some name =>
          show (if pairKey name (normalizeSectionName (getFirstString fs sectionKeys)
                    (some categoryKey)) ∈ seen
              then lunchPairsItems mealRe categoryKey seen pairs rest
              else lunchPairsItems mealRe categoryKey
                (pairKey name (normalizeSectionName (getFirstString fs sectionKeys)
                    (some categoryKey)) :: seen)
                (pairs ++ [⟨name, normalizeSectionName (getFirstString fs sectionKeys)
                    (some categoryKey)⟩]) rest) = _
          by_cases hk : pairKey name (normalizeSectionName (getFirstString fs sectionKeys)
              (some categoryKey)) ∈ seen
          · rw [if_pos hk]
            rw [show dedupSeenAfter seen
                (⟨name, normalizeSectionName (getFirstString fs sectionKeys) (some categoryKey)⟩ ::
                  lunchPairsItemsAll mealRe categoryKey rest) =
              dedupSeenAfter (if pairKey name (normalizeSectionName (getFirstString fs sectionKeys)
                  (some categoryKey)) ∈ seen then seen
                else pairKey name (normalizeSectionName (getFirstString fs sectionKeys)
                  (some categoryKey)) :: seen)
                (lunchPairsItemsAll mealRe categoryKey rest) from rfl]
            rw [show dedupByKey seen
                (⟨name, normalizeSectionName (getFirstString fs sectionKeys) (some categoryKey)⟩ ::
                  lunchPairsItemsAll mealRe categoryKey rest) =
              (if pairKey name (normalizeSectionName (getFirstString fs sectionKeys)
                  (some categoryKey)) ∈ seen
               then dedupByKey seen (lunchPairsItemsAll mealRe categoryKey rest)
               else ⟨name, normalizeSectionName (getFirstString fs sectionKeys)
                   (some categoryKey)⟩ ::
                 dedupByKey (pairKey name (normalizeSectionName (getFirstString fs sectionKeys)
                   (some categoryKey)) :: seen)
                   (lunchPairsItemsAll mealRe categoryKey rest)) from rfl]
            rw [if_pos hk, if_pos hk]
            exact ih seen pairs
          · rw [if_neg hk]
            rw [show dedupSeenAfter seen
                (⟨name, normalizeSectionName (getFirstString fs sectionKeys) (some categoryKey)⟩ ::
                  lunchPairsItemsAll mealRe categoryKey rest) =
              dedupSeenAfter (if pairKey name (normalizeSectionName (getFirstString fs sectionKeys)
                  (some categoryKey)) ∈ seen then seen
                else pairKey name (normalizeSectionName (getFirstString fs sectionKeys)
                  (some categoryKey)) :: seen)
                (lunchPairsItemsAll mealRe categoryKey rest) from rfl]
            rw [show dedupByKey seen
                (⟨name, normalizeSectionName (getFirstString fs sectionKeys) (some categoryKey)⟩ ::
                  lunchPairsItemsAll mealRe categoryKey rest) =
              (if pairKey name (normalizeSectionName (getFirstString fs sectionKeys)
                  (some categoryKey)) ∈ seen
               then dedupByKey seen (lunchPairsItemsAll mealRe categoryKey rest)
               else ⟨name, normalizeSectionName (getFirstString fs sectionKeys)
                   (some categoryKey)⟩ ::
                 dedupByKey (pairKey name (normalizeSectionName (getFirstString fs sectionKeys)
                   (some categoryKey)) :: seen)
                   (lunchPairsItemsAll mealRe categoryKey rest)) from rfl]
            rw [if_neg hk, if_neg hk, ih _ (pairs ++ [_])]
            simp
    | null => exact ih seen pairs
    | bool b => exact ih seen pairs
    | num n => exact ih seen pairs
    | str s => exact ih seen pairs
    | arr xs => exact ih seen pairs

theorem lunchPairsGo_eq_dedup :
    ∀ (mealRe : Str → Bool) (entries : List (Str × Json))
      (seen : List Str) (pairs : List ItemPair),
      lunchPairsGo mealRe seen pairs entries =
        pairs ++ dedupByKey seen (lunchPairsAll mealRe entries) := by
  intro mealRe entries
  induction entries with
  | nil => intro seen pairs; simp [lunchPairsGo, lunchPairsAll, dedupByKey]
  | cons e rest ih =>
    intro seen pairs
    obtain ⟨categoryKey, categoryValue⟩ := e
    cases categoryValue with
    | arr items =>
      show lunchPairsGo mealRe
          (lunchPairsItems mealRe categoryKey seen pairs items).1
          (lunchPairsItems mealRe categoryKey seen pairs items).2 rest = _
      rw [lunchPairsItems_eq_dedup]
      rw [ih]
      show pairs ++ dedupByKey seen (lunchPairsItemsAll mealRe categoryKey items) ++
            dedupByKey (dedupSeenAfter seen (lunchPairsItemsAll mealRe categoryKey items))
              (lunchPairsAll mealRe rest) =
          pairs ++ dedupByKey seen
            (lunchPairsItemsAll mealRe categoryKey items ++ lunchPairsAll mealRe rest)
      rw [dedupByKey_append, List.append_assoc]
    | obj fs => exact ih seen pairs
    | null => exact ih seen pairs
    | bool b => exact ih seen pairs
    | num n => exact ih seen pairs
    | str s => exact ih seen pairs

/-- CLAIM C5 (amended).  In both extractors the identity key actually used is
the joined string `name + "@@" + (section ?? "")`: each extractor equals
first-occurrence deduplication of its candidate stream by that key (so
insertion order is preserved and the first occurrence of each KEY wins), and
emitted pairs are pairwise distinct both as keys and as (name, section)
values.  Distinct identities whose joined keys collide are conflated. -/
theorem c5_dedup_by_joined_key :
    ∀ (mealObj : Json) (dayObj : List (Str × Json)) (mealRe : Str → Bool),
      extractItemPairs mealObj =
        dedupByKey [] (itemPairsAll (jsizeL [mealObj]) [mealObj]) ∧
      extractLunchPairsFromSageDay dayObj mealRe =
        dedupByKey [] (lunchPairsAll mealRe dayObj) ∧
      (extractItemPairs mealObj).Pairwise (fun p q => pairKeyOf p ≠ pairKeyOf q) ∧
      (extractItemPairs mealObj).Pairwise
        (fun p q => ¬ (p.name = q.name ∧ p.sect = q.sect)) ∧
      (extractLunchPairsFromSageDay dayObj mealRe).Pairwise
        (fun p q => pairKeyOf p ≠ pairKeyOf q) ∧
      (extractLunchPairsFromSageDay dayObj mealRe).Pairwise
        (fun p q => ¬ (p.name = q.name ∧ p.sect = q.sect)) := by
  intro mealObj dayObj mealRe
  have h1 : extractItemPairs mealObj =
      dedupByKey [] (itemPairsAll (jsizeL [mealObj]) [mealObj]) := by
    have := itemPairsGo_eq_dedup (jsizeL [mealObj]) [mealObj] [] []
    simpa [extractItemPairs] using this
  have h2 : extractLunchPairsFromSageDay dayObj mealRe =
      dedupByKey [] (lunchPairsAll mealRe dayObj) := by
    have := lunchPairsGo_eq_dedup mealRe dayObj [] []
    simpa [extractLunchPairsFromSageDay] using this
  have hk1 : (extractItemPairs mealObj).Pairwise
      (fun p q => pairKeyOf p ≠ pairKeyOf q) := by
    rw [h1]
    exact dedupByKey_pairwise _ _
  have hk2 : (extractLunchPairsFromSageDay dayObj mealRe).Pairwise
      (fun p q => pairKeyOf p ≠ pairKeyOf q) := by
    rw [h2]
    exact dedupByKey_pairwise _ _
  refine ⟨h1, h2, hk1, ?_, hk2, ?_⟩
  · exact hk1.imp (fun h hc => h (by rw [pairKeyOf, pairKeyOf, hc.1, hc.2]))
  · exact hk2.imp (fun h hc => h (by rw [pairKeyOf, pairKeyOf, hc.1, hc.2]))

/-- Fields of the C5 counterexample node whose identity is conflated away. -/
def c5NodeA : List (Str × Json) :=
  [("name".data, .str "ab@@cd".data), ("displayCategory".data, .str "ef".data)]

/-- Mini-tree visiting first the node with identity (ab, cd@@ef) and then the
node with identity (ab@@cd, ef); both joined keys are "ab@@cd@@ef". -/
def c5MealObj : Json :=
  .obj [("a".data, .obj c5NodeA),
        ("b".data, .obj [("name".data, .str "ab".data),
                         ("displayCategory".data, .str "cd@@ef".data)])]

/-- CLAIM C5 (counterexample).  The node with fields `c5NodeA` is visited, is
not a container, and carries the valid identity (ab@@cd, ef); yet no pair with
that identity is emitted, because its joined key "ab@@cd@@ef" collides with
the key of the earlier-visited identity (ab, cd@@ef) — refuting "the first
occurrence of each (name, section) identity wins". -/
theorem c5_counterexample :
    looksContainer c5NodeA = false ∧
    cleanFoodNameO (getFirstString c5NodeA nameKeys) = some "ab@@cd".data ∧
    normalizeSectionName (getFirstString c5NodeA sectionKeys) none = some "ef".data ∧
    extractItemPairs c5MealObj = [⟨"ab".data, some "cd@@ef".data⟩] ∧
    (⟨"ab@@cd".data, some "ef".data⟩ : ItemPair) ∉ extractItemPairs c5MealObj := by
  refine ⟨by decide, by decide, by decide, by decide, by decide⟩

/-- Fields of a container node that also carries a plausible name. -/
def c7Fields : List (Str × Json) :=
  [("name".data, .str "Tacos".data),
   ("items".data, .arr [.obj [("name".data, .str "Pizza".data)]])]

def c7Obj : Json := .obj c7Fields

/-- CLAIM C7.  A container node (an array-valued field whose first element is
an object) is never emitted as an item pair by the traversal — the step on a
container leaves `seen` and `pairs` untouched and only pushes its children —
and concretely, a container with the valid name "Tacos" contributes no pair
itself while its child "Pizza" is still extracted. -/
theorem c7_container_not_emitted :
    (∀ (fuel : Nat) (seen : List Str) (pairs : List ItemPair)
        (fs : List (Str × Json)) (rest : List Json),
      looksContainer fs = true →
      itemPairsGo (fuel + 1) seen pairs (.obj fs :: rest) =
        itemPairsGo fuel seen pairs ((jsonValues fs).reverse ++ rest)) ∧
    looksContainer c7Fields = true ∧
    cleanFoodNameO (getFirstString c7Fields nameKeys) = some "Tacos".data ∧
    extractItemPairs c7Obj = [⟨"Pizza".data, none⟩] := by
  refine ⟨?_, by decide, by decide, by decide⟩
  intro fuel seen pairs fs rest h
  show (if looksContainer fs then
          itemPairsGo fuel seen pairs ((jsonValues fs).reverse ++ rest)
        else _) = _
  rw [if_pos h]

/-- Witness for C7: the container step at a concrete input. -/
theorem c7_container_not_emitted_witness :
    itemPairsGo 4 [] [] (Json.obj c7Fields :: []) =
      itemPairsGo 3 [] [] ((jsonValues c7Fields).reverse ++ []) :=
  c7_container_not_emitted.1 3 [] [] c7Fields [] (by decide)

/-! Characterization of `coerceIsoDate` (claim C8). -/

/-- Shape of an ISO match: `20\d{2}-\d{2}-\d{2}`. -/
def isoShape (t : Str) : Prop :=
  ∃ a b c d e f : Char, isDigit a = true ∧ isDigit b = true ∧ isDigit c = true ∧
    isDigit d = true ∧ isDigit e = true ∧ isDigit f = true ∧
    t = ['2', '0', a, b, '-', c, d, '-', e, f]

theorem isoMatchAt_shape : ∀ (s t : Str), isoMatchAt s = some t → isoShape t := by
  intro s t h
  unfold isoMatchAt at h
  split at h
  · rename_i a b c d e f rest
    split at h
    · rename_i hcond
      cases h
      simp only [Bool.and_eq_true] at hcond
      exact ⟨a, b, c, d, e, f, hcond.1.1.1.1.1.1, hcond.1.1.1.1.1.2, hcond.1.1.1.1.2,
        hcond.1.1.1.2, hcond.1.1.2, hcond.1.2, rfl⟩
    · exact absurd h (by simp)
  · exact absurd h (by simp)

theorem findIso_shape : ∀ (v : Str) (prevWord : Bool) (t : Str),
    findIso prevWord v = some t → isoShape t := by
  intro v
  induction v with
  | nil =>
    intro pw t h
    simp [findIso] at h
  | cons c cs ih =>
    intro pw t h
    cases pw with
    | true =>
      have e : findIso true (c :: cs) = findIso (isWordChar c) cs := rfl
      rw [e] at h
      exact ih _ t h
    | false =>
      have e : findIso false (c :: cs) =
          (match isoMatchAt (c :: cs) with
           | some t => some t
           | none => findIso (isWordChar c) cs) := rfl
      rw [e] at h
      cases him : isoMatchAt (c :: cs) with
      | some r =>
        rw [him] at h
        cases h
        exact isoMatchAt_shape _ _ him
      | none =>
        rw [him] at h
        exact ih _ t h

/-- CLAIM C8 (amended).  `coerceIsoDate` returns the LEFTMOST embedded ISO
token (of shape `20\d{2}-\d{2}-\d{2}`) unchanged when the ISO pattern matches;
otherwise, when the leftmost slash-delimited match has month in [1,12] and day
in [1,31], it returns that match reformatted to `YYYY-MM-DD` with zero
padding; when the leftmost slash match fails that validation, it returns null
even if a later token in the string would validate.  The claim's two concrete
examples hold. -/
theorem c8_coerceIsoDate_characterized :
    coerceIsoDate "02/09/2026".data = some "2026-02-09".data ∧
    coerceIsoDate "menu for 2026-02-09".data = some "2026-02-09".data ∧
    (∀ (v t : Str), findIso false v = some t →
      coerceIsoDate v = some t ∧ isoShape t) ∧
    (∀ (v : Str) (m d y : Nat), findIso false v = none → findUs false v = some (m, d, y) →
      1 ≤ m → m ≤ 12 → 1 ≤ d → d ≤ 31 →
      coerceIsoDate v = some (numToStr y ++ '-' :: (pad2 m ++ '-' :: pad2 d))) ∧
    (∀ (v : Str) (m d y : Nat), findIso false v = none → findUs false v = some (m, d, y) →
      (m < 1 ∨ 12 < m ∨ d < 1 ∨ 31 < d) → coerceIsoDate v = none) := by
  refine ⟨by decide, by decide, ?_, ?_, ?_⟩
  · intro v t h
    refine ⟨?_, findIso_shape v false t h⟩
    unfold coerceIsoDate
    rw [h]
  · intro v m d y hiso hus hm1 hm2 hd1 hd2
    unfold coerceIsoDate
    rw [hiso]
    show usDateToIso v = _
    unfold usDateToIso
    rw [hus]
    show (if m < 1 || 12 < m || d < 1 || 31 < d then none
      else some (numToStr y ++ '-' :: (pad2 m ++ '-' :: pad2 d))) = _
    rw [if_neg ?_]
    simp only [Bool.or_eq_true, decide_eq_true_eq, not_or]
    omega
  · intro v m d y hiso hus hbad
    unfold coerceIsoDate
    rw [hiso]
    show usDateToIso v = _
    unfold usDateToIso
    rw [hus]
    show (if m < 1 || 12 < m || d < 1 || 31 < d then none
      else some (numToStr y ++ '-' :: (pad2 m ++ '-' :: pad2 d))) = _
    rw [if_pos ?_]
    simp only [Bool.or_eq_true, decide_eq_true_eq]
    omega

/-- Witness for C8: the validated-first-match branch at a concrete input. -/
theorem c8_coerceIsoDate_characterized_witness :
    coerceIsoDate "x 1/2/2026,".data =
      some (numToStr 2026 ++ '-' :: (pad2 1 ++ '-' :: pad2 2)) :=
  c8_coerceIsoDate_characterized.2.2.2.1 "x 1/2/2026,".data 1 2 2026
    (by decide) (by decide) (by decide) (by decide) (by decide) (by decide)

/-- CLAIM C8 (counterexample).  The string "0/0/2026 02/09/2026" contains the
slash-delimited token "02/09/2026" with month 2 and day 9, which `usDateToIso`
alone reformats to "2026-02-09"; yet `coerceIsoDate` on the whole string
returns null, because the leftmost match "0/0/2026" fails range validation —
refuting "for every string containing a validated slash-delimited token, the
token is returned reformatted". -/
theorem c8_counterexample :
    usDateToIso "02/09/2026".data = some "2026-02-09".data ∧
    "0/0/2026 02/09/2026".data = "0/0/2026 ".data ++ "02/09/2026".data ∧
    coerceIsoDate "0/0/2026 02/09/2026".data = none := by
  refine ⟨by decide, by decide, by decide⟩

/-! Slash dependence of the US date regex (claim C10). -/

theorem usSlashYear_mem :
    ∀ (m d : Nat) (s : Str) (r : Nat × Nat × Nat), usSlashYear m d s = some r → '/' ∈ s := by
  intro m d s r h
  unfold usSlashYear at h
  split at h
  · exact List.mem_cons_self _ _
  · exact absurd h (by simp)

theorem usDay_mem :
    ∀ (m : Nat) (s : Str) (r : Nat × Nat × Nat), usDay m s = some r → '/' ∈ s := by
  intro m s r h
  unfold usDay at h
  rw [Option.orElse_eq_some] at h
  rcases h with h | ⟨_, h⟩
  · split at h
    · rename_i a b rest
      split at h
      · exact List.mem_cons_of_mem _ (List.mem_cons_of_mem _ (usSlashYear_mem _ _ _ _ h))
      · exact absurd h (by simp)
    · exact absurd h (by simp)
  · split at h
    · rename_i a rest
      split at h
      · exact List.mem_cons_of_mem _ (usSlashYear_mem _ _ _ _ h)
      · exact absurd h (by simp)
    · exact absurd h (by simp)

theorem usSlashDay_mem :
    ∀ (m : Nat) (s : Str) (r : Nat × Nat × Nat), usSlashDay m s = some r → '/' ∈ s := by
  intro m s r h
  unfold usSlashDay at h
  split at h
  · exact List.mem_cons_self _ _
  · exact absurd h (by simp)

theorem usMatchAt_mem :
    ∀ (s : Str) (r : Nat × Nat × Nat), usMatchAt s = some r → '/' ∈ s := by
  intro s r h
  unfold usMatchAt at h
  rw [Option.orElse_eq_some] at h
  rcases h with h | ⟨_, h⟩
  · split at h
    · rename_i a b rest
      split at h
      · exact List.mem_cons_of_mem _ (List.mem_cons_of_mem _ (usSlashDay_mem _ _ _ h))
      · exact absurd h (by simp)
    · exact absurd h (by simp)
  · split at h
    · rename_i a rest
      split at h
      · exact List.mem_cons_of_mem _ (usSlashDay_mem _ _ _ h)
      · exact absurd h (by simp)
    · exact absurd h (by simp)

theorem findUs_mem :
    ∀ (s : Str) (prevWord : Bool) (r : Nat × Nat × Nat), findUs prevWord s = some r → '/' ∈ s := by
  intro s
  induction s with
  | nil =>
    intro pw r h
    simp [findUs] at h
  | cons c cs ih =>
    intro pw r h
    cases pw with
    | true =>
      have e : findUs true (c :: cs) = findUs (isWordChar c) cs := rfl
      rw [e] at h
      exact List.mem_cons_of_mem _ (ih _ r h)
    | false =>
      have e : findUs false (c :: cs) =
          (match usMatchAt (c :: cs) with
           | some t => some t
           | none => findUs (isWordChar c) cs) := rfl
      rw [e] at h
      cases hm : usMatchAt (c :: cs) with
      | some t =>
        rw [hm] at h
        exact usMatchAt_mem _ _ hm
      | none =>
        rw [hm] at h
        exact List.mem_cons_of_mem _ (ih _ r h)

theorem usDateToIso_none_of_no_slash {k : Str} (h : '/' ∉ k) : usDateToIso k = none := by
  unfold usDateToIso
  cases hm : findUs false k with
  | none => rfl
  | some r => exact absurd (findUs_mem k false r hm) h

/-- CLAIM C10.  A root object whose keys contain no slash — in particular one
keyed by ISO `YYYY-MM-DD` strings — produces no date entries (`usDateToIso` on
a slash-free key is null), so `extractNextLunchFromSageDateMap` returns null
and `extractNextLunch` can only serve the document through the generic
fallback `tryExtractNextLunchFromRoot`. -/
theorem c10_iso_keys_use_generic_fallback :
    ∀ (fs : List (Str × Json)) (fmtDate : Str → Str) (mealRe : Str → Bool) (startIso : Str),
      (∀ kv ∈ fs, '/' ∉ kv.1) →
      extractNextLunchFromSageDateMap (.obj fs) fmtDate mealRe startIso = none ∧
      extractNextLunch (.obj fs) fmtDate mealRe startIso =
        tryExtractNextLunchFromRoot (.obj fs) fmtDate mealRe startIso := by
  intro fs fmtDate mealRe startIso hk
  have hde : dateEntries fs = [] := by
    unfold dateEntries
    have hfm : fs.filterMap (fun f =>
        match usDateToIso f.1 with
        | some iso => if isPlainObject f.2 then some (DateEntry.mk iso f.2) else none
        | none => none) = [] := by
      rw [List.filterMap_eq_nil]
      intro kv hkv
      rw [usDateToIso_none_of_no_slash (hk kv hkv)]
    rw [hfm]
    rfl
  have h1 : extractNextLunchFromSageDateMap (.obj fs) fmtDate mealRe startIso = none := by
    show (if (dateEntries fs).isEmpty then none
        else sageLoop fmtDate mealRe startIso (dateEntries fs)) = none
    rw [hde]
    rfl
  refine ⟨h1, ?_⟩
  show (match extractNextLunchFromSageDateMap (.obj fs) fmtDate mealRe startIso with
    | some r => some r
    | none => tryExtractNextLunchFromRoot (.obj fs) fmtDate mealRe startIso) = _
  rw [h1]

/-- Concrete meal predicate for the C10 witness. -/
def c10MealRe (s : Str) : Bool := s == "Lunch".data

/-- An ISO-keyed day map. -/
def c10Fields : List (Str × Json) :=
  [("2026-02-09".data, .obj [("Lunch".data,
     .arr [.obj [("name".data, .str "Pizza".data), ("meal".data, .str "Lunch".data)]])])]

/-- Witness for C10: the theorem applied to a concrete ISO-keyed root. -/
theorem c10_iso_keys_use_generic_fallback_witness :
    extractNextLunchFromSageDateMap (.obj c10Fields) (fun s => s) c10MealRe
        "2026-02-01".data = none ∧
    extractNextLunch (.obj c10Fields) (fun s => s) c10MealRe "2026-02-01".data =
      tryExtractNextLunchFromRoot (.obj c10Fields) (fun s => s) c10MealRe "2026-02-01".data :=
  c10_iso_keys_use_generic_fallback c10Fields (fun s => s) c10MealRe "2026-02-01".data
    (by decide)

/-! The ladder selection of `compactMergeVariables` (claims C2, C3). -/

/-- The ladder indexed by position. -/
def planAt : Nat → Plan
  | 0 => plan1
  | 1 => plan2
  | 2 => plan3
  | 3 => plan4
  | _ => plan5

theorem truncateText_nil : ∀ (m : Nat), truncateText [] m = [] := by
  intro m
  simp [truncateText]

theorem compactGo_mem :
    ∀ (ps : List Plan) (mv : MergeVars) (p : Plan),
      ∃ q, (q = p ∨ q ∈ ps) ∧ compactGo mv p ps = mkCandidate mv q := by
  intro ps
  induction ps with
  | nil =>
    intro mv p
    refine ⟨p, Or.inl rfl, ?_⟩
    show (if (mkCandidate mv p).bytes ≤ maxPayloadBytes then mkCandidate mv p
        else mkCandidate mv p) = _
    rw [ite_self]
  | cons r rs ih =>
    intro mv p
    by_cases h : (mkCandidate mv p).bytes ≤ maxPayloadBytes
    · refine ⟨p, Or.inl rfl, ?_⟩
      show (if (mkCandidate mv p).bytes ≤ maxPayloadBytes then mkCandidate mv p
          else compactGo mv r rs) = _
      rw [if_pos h]
    · obtain ⟨q, hq, he⟩ := ih mv r
      refine ⟨q, Or.inr ?_, ?_⟩
      · rcases hq with hq | hq
        · exact hq ▸ List.mem_cons_self _ _
        · exact List.mem_cons_of_mem _ hq
      · show (if (mkCandidate mv p).bytes ≤ maxPayloadBytes then mkCandidate mv p
            else compactGo mv r rs) = _
        rw [if_neg h, he]

theorem applyPayloadLimits_error :
    ∀ (mv : MergeVars) (p : Plan),
      (applyPayloadLimits mv p).error = mv.error.map (fun e => truncateText e p.errorMax) := by
  intro mv p
  show mv.error.map (fun e => if e.isEmpty then e else truncateText e p.errorMax) = _
  cases mv.error with
  | none => rfl
  | some e =>
    show some (if e.isEmpty then e else truncateText e p.errorMax) =
      some (truncateText e p.errorMax)
    by_cases he : e.isEmpty = true
    · have h0 : e = [] := by simpa [List.isEmpty_iff] using he
      rw [if_pos he, h0, truncateText_nil]
    · rw [if_neg he]

/-- CLAIM C2.  `compactMergeVariables` tries the five plans strictly in ladder
order and returns the candidate of the first plan whose serialized byte length
fits the 1900-byte budget; when no plan fits it returns the candidate of the
last, most restrictive plan; and the caller delivers the compacted merge
variables it got back in every case rather than failing. -/
theorem c2_first_fit_or_last_and_delivered :
    ∀ (mv : MergeVars),
      ((∃ i, i < 5 ∧ (∀ j, j < i → maxPayloadBytes < (mkCandidate mv (planAt j)).bytes) ∧
          (mkCandidate mv (planAt i)).bytes ≤ maxPayloadBytes ∧
          compactMergeVariables mv = mkCandidate mv (planAt i)) ∨
        ((∀ j, j < 5 → maxPayloadBytes < (mkCandidate mv (planAt j)).bytes) ∧
          compactMergeVariables mv = mkCandidate mv plan5)) ∧
      (∀ (u s t : Str) (outcome : Except Str LunchResult),
        (mainRun u s t outcome).delivered =
          (compactMergeVariables (mainMergeVars u s t outcome)).mergeVariables) := by
  intro mv
  have e : compactMergeVariables mv =
      (if (mkCandidate mv plan1).bytes ≤ maxPayloadBytes then mkCandidate mv plan1
       else if (mkCandidate mv plan2).bytes ≤ maxPayloadBytes then mkCandidate mv plan2
       else if (mkCandidate mv plan3).bytes ≤ maxPayloadBytes then mkCandidate mv plan3
       else if (mkCandidate mv plan4).bytes ≤ maxPayloadBytes then mkCandidate mv plan4
       else if (mkCandidate mv plan5).bytes ≤ maxPayloadBytes then mkCandidate mv plan5
       else mkCandidate mv plan5) := rfl
  constructor
  · by_cases h1 : (mkCandidate mv plan1).bytes ≤ maxPayloadBytes
    · refine Or.inl ⟨0, by omega, by intro j hj; omega, h1, ?_⟩
      rw [e, if_pos h1]
      rfl
    · by_cases h2 : (mkCandidate mv plan2).bytes ≤ maxPayloadBytes
      · refine Or.inl ⟨1, by omega, ?_, h2, ?_⟩
        · intro j hj
          interval_cases j
          exact Nat.lt_of_not_le h1
        · rw [e, if_neg h1, if_pos h2]
          rfl
      · by_cases h3 : (mkCandidate mv plan3).bytes ≤ maxPayloadBytes
        · refine Or.inl ⟨2, by omega, ?_, h3, ?_⟩
          · intro j hj
            interval_cases j
            · exact Nat.lt_of_not_le h1
            · exact Nat.lt_of_not_le h2
          · rw [e, if_neg h1, if_neg h2, if_pos h3]
            rfl
        · by_cases h4 : (mkCandidate mv plan4).bytes ≤ maxPayloadBytes
          · refine Or.inl ⟨3, by omega, ?_, h4, ?_⟩
            · intro j hj
              interval_cases j
              · exact Nat.lt_of_not_le h1
              · exact Nat.lt_of_not_le h2
              · exact Nat.lt_of_not_le h3
            · rw [e, if_neg h1, if_neg h2, if_neg h3, if_pos h4]
              rfl
          · by_cases h5 : (mkCandidate mv plan5).bytes ≤ maxPayloadBytes
            · refine Or.inl ⟨4, by omega, ?_, h5, ?_⟩
              · intro j hj
                interval_cases j
                · exact Nat.lt_of_not_le h1
                · exact Nat.lt_of_not_le h2
                · exact Nat.lt_of_not_le h3
                · exact Nat.lt_of_not_le h4
              · rw [e, if_neg h1, if_neg h2, if_neg h3, if_neg h4, if_pos h5]
                rfl
            · refine Or.inr ⟨?_, ?_⟩
              · intro j hj
                interval_cases j
                · exact Nat.lt_of_not_le h1
                · exact Nat.lt_of_not_le h2
                · exact Nat.lt_of_not_le h3
                · exact Nat.lt_of_not_le h4
                · exact Nat.lt_of_not_le h5
              · rw [e, if_neg h1, if_neg h2, if_neg h3, if_neg h4, if_neg h5]
  · intro u s t outcome
    simp only [mainRun]

/-- CLAIM C3.  The error envelope is passed through the same compaction ladder
as success output: the delivered payload is exactly the compaction of the
error merge variables, its recorded byte count is the payload byte count, and
there is a ladder plan whose limits produced it, with the error string (ANSI
stripped and pre-capped at 200 characters by `main`) truncated to that plan's
`errorMax`. -/
theorem c3_error_path_same_compaction :
    ∀ (u s t msg : Str),
      (mainRun u s t (.error msg)).delivered =
        (compactMergeVariables (mkErrorMV u s msg)).mergeVariables ∧
      (mainRun u s t (.error msg)).bytes =
        payloadBytes (mainRun u s t (.error msg)).delivered ∧
      ∃ p ∈ plans,
        (mainRun u s t (.error msg)).delivered =
          applyPayloadLimits (mkErrorMV u s msg) p ∧
        ((mainRun u s t (.error msg)).delivered).error =
          some (truncateText (truncateText (stripAnsi msg) 200) p.errorMax) := by
  intro u s t msg
  obtain ⟨q, hq, he⟩ := compactGo_mem [plan2, plan3, plan4, plan5] (mkErrorMV u s msg) plan1
  have hcompact : compactMergeVariables (mkErrorMV u s msg) =
      mkCandidate (mkErrorMV u s msg) q := he
  have hrun : mainRun u s t (.error msg) =
      ⟨(compactMergeVariables (mkErrorMV u s msg)).mergeVariables,
       (compactMergeVariables (mkErrorMV u s msg)).bytes,
       !((compactMergeVariables (mkErrorMV u s msg)).mergeVariables.status == "ok".data) ||
         decide (maxPayloadBytes < (compactMergeVariables (mkErrorMV u s msg)).bytes)⟩ := by
    simp only [mainRun, mainMergeVars]
  refine ⟨by rw [hrun], ?_, q, ?_, ?_, ?_⟩
  · rw [hrun, hcompact]
    rfl
  · rcases hq with hq | hq
    · exact hq ▸ List.mem_cons_self _ _
    · exact List.mem_cons_of_mem _ hq
  · rw [hrun, hcompact]
    rfl
  · rw [hrun, hcompact]
    show (applyPayloadLimits (mkErrorMV u s msg) q).error = _
    rw [applyPayloadLimits_error]
    rfl

/-! Compaction size behaviour across the ladder (claim C1). -/

/-- Merge variables carrying one station with a single 45-character item. -/
def c1MV : MergeVars :=
  { status := "ok".data
    updatedAtLocal := "x".data
    sourceUrl := "y".data
    error := none
    lunch :=
      { date := some "2026-02-10".data
        dateDisplay := some "Tue".data
        note := none
        sections := [⟨"A".data, [List.replicate 45 'a']⟩]
        items := [] } }

set_option maxRecDepth 4000 in
/-- CLAIM C1 (counterexample).  A 45-character ASCII item is left intact by
`plan2` (`itemMax = 56`, 45 bytes) but truncated by the strictly more
restrictive `plan3` (`itemMax = 44`) to 43 characters plus the ellipsis, whose
UTF-8 width is 3 bytes — 46 bytes.  The serialized byte size therefore grows
from one ladder rung to the next more restrictive one. -/
theorem c1_counterexample :
    plans = [plan1, plan2, plan3, plan4, plan5] ∧
    payloadBytes (applyPayloadLimits c1MV plan2) = 238 ∧
    payloadBytes (applyPayloadLimits c1MV plan3) = 239 ∧
    ¬ (payloadBytes (applyPayloadLimits c1MV plan3) ≤
        payloadBytes (applyPayloadLimits c1MV plan2)) := by
  refine ⟨rfl, by decide, by decide, by decide⟩

/-- Escaped length of a string. -/
def escLen (s : Str) : Nat := (escStr s).length

theorem escStr_append (a b : Str) : escStr (a ++ b) = escStr a ++ escStr b := by
  simp [escStr]

theorem escStr_cons (c : Char) (s : Str) : escStr (c :: s) = escChar c ++ escStr s := by
  simp [escStr]

theorem escLen_append (a b : Str) : escLen (a ++ b) = escLen a + escLen b := by
  simp [escLen, escStr_append]

theorem escLen_cons (c : Char) (s : Str) :
    escLen (c :: s) = (escChar c).length + escLen s := by
  simp [escLen, escStr_cons]

theorem escChar_length_pos (c : Char) : 1 ≤ (escChar c).length := by
  unfold escChar
  repeat' split
  all_goals simp

theorem length_le_escLen (s : Str) : s.length ≤ escLen s := by
  induction s with
  | nil => simp [escLen, escStr]
  | cons c cs ih =>
    rw [escLen_cons]
    have := escChar_length_pos c
    simp only [List.length_cons]
    omega

theorem escLen_take_mono {a b : Nat} (s : Str) (h : a ≤ b) :
    escLen (s.take a) ≤ escLen (s.take b) := by
  have hsplit : s.take b = s.take a ++ (s.take b).drop a := by
    rw [show s.take a = (s.take b).take a from by rw [List.take_take, Nat.min_eq_left h]]
    exact (List.take_append_drop a (s.take b)).symm
  rw [hsplit, escLen_append]
  omega

theorem escLen_take_le (s : Str) (a : Nat) : escLen (s.take a) ≤ escLen s := by
  conv_rhs => rw [← List.take_append_drop a s]
  rw [escLen_append]
  omega

theorem escChar_ellipsis : escChar '…' = ['…'] := by decide

theorem escLen_trunc_mono {m1 m2 : Nat} (s : Str) (h : m1 ≤ m2) :
    escLen (truncateText s m1) ≤ escLen (truncateText s m2) := by
  unfold truncateText
  by_cases h1 : m1 ≤ 1
  · rw [if_pos h1]
    by_cases h2 : m2 ≤ 1
    · rw [if_pos h2]
    · rw [if_neg h2]
      by_cases hlen : s.length ≤ m2
      · rw [if_pos hlen]
        exact escLen_take_le s 1
      · rw [if_neg hlen]
        rw [escLen_append]
        have : escLen (s.take 1) ≤ escLen (s.take (m2 - 1)) :=
          escLen_take_mono s (by omega)
        omega
  · rw [if_neg h1]
    have h2 : ¬ m2 ≤ 1 := by omega
    rw [if_neg h2]
    by_cases hl1 : s.length ≤ m1
    · rw [if_pos hl1, if_pos (by omega : s.length ≤ m2)]
    · rw [if_neg hl1]
      by_cases hl2 : s.length ≤ m2
      · rw [if_pos hl2]
        conv_rhs => rw [← List.take_append_drop (m1 - 1) s]
        rw [escLen_append, escLen_append]
        have hdrop : 1 ≤ (s.drop (m1 - 1)).length := by
          rw [List.length_drop]
          omega
        have := length_le_escLen (s.drop (m1 - 1))
        have hell : escLen ['…'] = 1 := by rw [escLen, escStr, List.flatMap]; decide
        omega
      · rw [if_neg hl2]
        rw [escLen_append, escLen_append]
        have := escLen_take_mono s (show m1 - 1 ≤ m2 - 1 by omega)
        omega

/-- Elementwise domination under a string measure, paired with a length cap:
the left list is at most as long and each element measures at most as much. -/
inductive DomBy (f : Str → Nat) : List Str → List Str → Prop
  | nil (l : List Str) : DomBy f [] l
  | cons (x y : Str) (xs ys : List Str) :
      f x ≤ f y → DomBy f xs ys → DomBy f (x :: xs) (y :: ys)

theorem commaJoin_head_le (y : Str) (ys : List Str) :
    y.length ≤ (commaJoin (y :: ys)).length := by
  cases ys with
  | nil => simp [commaJoin]
  | cons y2 ys2 =>
    show y.length ≤ (y ++ ',' :: commaJoin (y2 :: ys2)).length
    simp only [List.length_append, List.length_cons]
    omega

theorem commaJoin_length_mono :
    ∀ {l1 l2 : List Str}, DomBy List.length l1 l2 →
      (commaJoin l1).length ≤ (commaJoin l2).length := by
  intro l1 l2 h
  induction h with
  | nil l => simp [commaJoin]
  | cons x y xs ys hxy hd ih =>
    cases hd with
    | nil =>
      show (commaJoin [x]).length ≤ (commaJoin (y :: ys)).length
      calc (commaJoin [x]).length = x.length := by simp [commaJoin]
        _ ≤ y.length := hxy
        _ ≤ (commaJoin (y :: ys)).length := commaJoin_head_le y ys
    | cons x2 y2 xs2 ys2 hxy2 hd2 =>
      show (x ++ ',' :: commaJoin (x2 :: xs2)).length ≤
        (y ++ ',' :: commaJoin (y2 :: ys2)).length
      simp only [List.length_append, List.length_cons]
      have ihx : (commaJoin (x2 :: xs2)).length ≤ (commaJoin (y2 :: ys2)).length := ih
      omega

theorem escChar_comma : escChar ',' = [','] := by decide

theorem escChar_space : escChar ' ' = [' '] := by decide

theorem joinCommaSpace_head_le (y : Str) (ys : List Str) :
    escLen y ≤ escLen (joinCommaSpace (y :: ys)) := by
  cases ys with
  | nil => simp [joinCommaSpace]
  | cons y2 ys2 =>
    show escLen y ≤ escLen (y ++ ',' :: ' ' :: joinCommaSpace (y2 :: ys2))
    rw [escLen_append]
    omega

theorem joinCommaSpace_escLen_mono :
    ∀ {l1 l2 : List Str}, DomBy escLen l1 l2 →
      escLen (joinCommaSpace l1) ≤ escLen (joinCommaSpace l2) := by
  intro l1 l2 h
  induction h with
  | nil l => simp [joinCommaSpace, escLen, escStr]
  | cons x y xs ys hxy hd ih =>
    cases hd with
    | nil =>
      calc escLen (joinCommaSpace [x]) = escLen x := by simp [joinCommaSpace]
        _ ≤ escLen y := hxy
        _ ≤ escLen (joinCommaSpace (y :: ys)) := joinCommaSpace_head_le y ys
    | cons x2 y2 xs2 ys2 hxy2 hd2 =>
      show escLen (x ++ ',' :: ' ' :: joinCommaSpace (x2 :: xs2)) ≤
        escLen (y ++ ',' :: ' ' :: joinCommaSpace (y2 :: ys2))
      rw [escLen_append, escLen_append, escLen_cons, escLen_cons, escLen_cons, escLen_cons]
      have ihx : escLen (joinCommaSpace (x2 :: xs2)) ≤ escLen (joinCommaSpace (y2 :: ys2)) := ih
      omega

theorem DomBy_map_take {α : Type} {f : Str → Nat} {g1 g2 : α → Str}
    (hg : ∀ b, f (g1 b) ≤ f (g2 b)) :
    ∀ (bs : List α) (k1 k2 : Nat), k1 ≤ k2 →
      DomBy f ((bs.map g1).take k1) ((bs.map g2).take k2) := by
  intro bs
  induction bs with
  | nil => intro k1 k2 hk; simp [DomBy.nil]
  | cons b bs ih =>
    intro k1 k2 hk
    cases k1 with
    | zero => exact DomBy.nil _
    | succ k1 =>
      cases k2 with
      | zero => omega
      | succ k2 =>
        simp only [List.map_cons, List.take_succ_cons]
        exact DomBy.cons _ _ _ _ (hg b) (ih k1 k2 (by omega))

theorem cleanFoodName_ne_nil {it v : Str} (h : cleanFoodName it = some v) : v ≠ [] := by
  simp only [cleanFoodName] at h
  split at h
  · exact absurd h (by simp)
  · split at h
    · exact absurd h (by simp)
    · split at h
      · exact absurd h (by simp)
      · split at h
        · exact absurd h (by simp)
        · split at h
          · exact absurd h (by simp)
          · rename_i hne _ _ _ _
            cases h
            simpa [List.isEmpty_iff] using hne

theorem truncateText_ne_nil {s : Str} (m : Nat) (h : s ≠ []) : truncateText s m ≠ [] := by
  unfold truncateText
  split
  · cases s with
    | nil => exact absurd rfl h
    | cons c cs => simp
  · split
    · exact h
    · simp

theorem compactItems_eq :
    ∀ (items : List Str) (m : Nat),
      (items.map (fun it => compactItem it m)).filter (fun it => !it.isEmpty) =
        (items.filterMap cleanFoodName).map (fun v => truncateText v m) := by
  intro items m
  induction items with
  | nil => rfl
  | cons it rest ih =>
    simp only [List.map_cons, List.filter_cons, List.filterMap_cons]
    cases hc : cleanFoodName it with
    | none =>
      have : compactItem it m = [] := by
        unfold compactItem
        rw [hc]
        exact truncateText_nil m
      rw [this]
      simpa using ih
    | some v =>
      have h1 : compactItem it m = truncateText v m := by
        unfold compactItem
        rw [hc]
        rfl
      have h2 : truncateText v m ≠ [] := truncateText_ne_nil m (cleanFoodName_ne_nil hc)
      rw [h1]
      have h3 : (!(truncateText v m).isEmpty) = true := by
        simpa [List.isEmpty_iff] using h2
      rw [h3]
      simp only [List.map_cons, if_true]
      rw [ih]

theorem take_map_ne_nil {α β : Type} {f : α → β} {l : List α} {k : Nat}
    (hk : 1 ≤ k) (hl : l ≠ []) : ((l.map f).take k) ≠ [] := by
  cases l with
  | nil => exact absurd rfl hl
  | cons x xs =>
    cases k with
    | zero => omega
    | succ k => simp

theorem toCompactStations_eq :
    ∀ (stations : List SectionData) (L ipc nm im : Nat), 1 ≤ ipc →
      toCompactStations stations L ipc nm im =
        ((stations.filter (fun s => !(s.items.filterMap cleanFoodName).isEmpty)).take L).map
          (fun s => CompactStation.mk (truncateText (cleanLabel s.name) nm)
            (joinCommaSpace (((s.items.filterMap cleanFoodName).map
              (fun v => truncateText v im)).take ipc))) := by
  intro stations L ipc nm im hipc
  unfold toCompactStations
  simp only [compactItems_eq]
  rw [List.filter_map]
  have hPQ : ((fun (s : SectionData) => !s.items.isEmpty) ∘ (fun (s : SectionData) =>
      SectionData.mk (truncateText (cleanLabel s.name) nm)
      (((s.items.filterMap cleanFoodName).map (fun v => truncateText v im)).take ipc))) =
      (fun (s : SectionData) => !(s.items.filterMap cleanFoodName).isEmpty) := by
    funext s
    show (!((((s.items.filterMap cleanFoodName).map
        (fun v => truncateText v im)).take ipc)).isEmpty) = _
    cases hb : s.items.filterMap cleanFoodName with
    | nil => simp [hb]
    | cons b bs =>
      have h1 : (((b :: bs).map (fun v => truncateText v im)).take ipc) ≠ [] :=
        take_map_ne_nil hipc (by simp)
      have h2 : ((((b :: bs).map (fun v => truncateText v im)).take ipc)).isEmpty = false := by
        simpa [List.isEmpty_iff] using h1
      rw [h2]
      simp
  rw [hPQ, ← List.map_take, List.map_map]
  rfl

theorem jstr_length (s : Str) : (jstr s).length = 2 + escLen s := by
  simp only [jstr, List.length_cons, List.length_append, List.length_nil, escLen]
  omega

theorem serializeStation_length (st : CompactStation) :
    (serializeStation st).length = 29 + escLen st.name + escLen st.itemsJoined := by
  have h1 : ("\x7b\"name\":".data).length = 8 := rfl
  have h2 : (",\"items_joined\":".data).length = 16 := rfl
  have h3 : ("\x7d".data).length = 1 := rfl
  simp only [serializeStation, List.length_append, h1, h2, h3, jstr_length]
  omega

theorem jarr_length_mono {l1 l2 : List Str} (h : DomBy List.length l1 l2) :
    (jarr l1).length ≤ (jarr l2).length := by
  simp only [jarr, List.length_cons, List.length_append]
  have := commaJoin_length_mono h
  omega

theorem items_jarr_mono (base : List Str) (m1 m2 k1 k2 : Nat) (hm : m1 ≤ m2) (hk : k1 ≤ k2) :
    (jarr (((base.map (fun v => truncateText v m1)).take k1).map jstr)).length ≤
    (jarr (((base.map (fun v => truncateText v m2)).take k2).map jstr)).length := by
  apply jarr_length_mono
  rw [List.map_take, List.map_take, List.map_map, List.map_map]
  refine DomBy_map_take ?_ base k1 k2 hk
  intro b
  show (jstr (truncateText b m1)).length ≤ (jstr (truncateText b m2)).length
  rw [jstr_length, jstr_length]
  have := escLen_trunc_mono b hm
  omega

theorem stations_jarr_mono (secs : List SectionData) (L1 L2 ipc1 ipc2 nm1 nm2 im1 im2 : Nat)
    (hL : L1 ≤ L2) (hipc : ipc1 ≤ ipc2) (hnm : nm1 ≤ nm2) (him : im1 ≤ im2)
    (h1 : 1 ≤ ipc1) (h2 : 1 ≤ ipc2) :
    (jarr ((toCompactStations secs L1 ipc1 nm1 im1).map serializeStation)).length ≤
    (jarr ((toCompactStations secs L2 ipc2 nm2 im2).map serializeStation)).length := by
  rw [toCompactStations_eq secs L1 ipc1 nm1 im1 h1, toCompactStations_eq secs L2 ipc2 nm2 im2 h2]
  apply jarr_length_mono
  rw [List.map_map, List.map_map, List.map_take, List.map_take]
  refine DomBy_map_take ?_ _ L1 L2 hL
  intro s
  show (serializeStation (CompactStation.mk (truncateText (cleanLabel s.name) nm1)
      (joinCommaSpace (((s.items.filterMap cleanFoodName).map
        (fun v => truncateText v im1)).take ipc1)))).length ≤
    (serializeStation (CompactStation.mk (truncateText (cleanLabel s.name) nm2)
      (joinCommaSpace (((s.items.filterMap cleanFoodName).map
        (fun v => truncateText v im2)).take ipc2)))).length
  rw [serializeStation_length, serializeStation_length]
  show 29 + escLen (truncateText (cleanLabel s.name) nm1) +
      escLen (joinCommaSpace (((s.items.filterMap cleanFoodName).map
        (fun v => truncateText v im1)).take ipc1)) ≤
    29 + escLen (truncateText (cleanLabel s.name) nm2) +
      escLen (joinCommaSpace (((s.items.filterMap cleanFoodName).map
        (fun v => truncateText v im2)).take ipc2))
  have hname : escLen (truncateText (cleanLabel s.name) nm1) ≤
      escLen (truncateText (cleanLabel s.name) nm2) := escLen_trunc_mono _ hnm
  have hjoin : escLen (joinCommaSpace (((s.items.filterMap cleanFoodName).map
        (fun v => truncateText v im1)).take ipc1)) ≤
      escLen (joinCommaSpace (((s.items.filterMap cleanFoodName).map
        (fun v => truncateText v im2)).take ipc2)) := by
    apply joinCommaSpace_escLen_mono
    refine DomBy_map_take ?_ _ ipc1 ipc2 hipc
    intro v
    exact escLen_trunc_mono v him
  omega

theorem applyPayloadLimits_chars_mono (mv : MergeVars) (p q : Plan)
    (hL : p.stationLimit ≤ q.stationLimit) (hipc : p.itemsPerStation ≤ q.itemsPerStation)
    (hfb : p.fallbackLimit ≤ q.fallbackLimit) (hnm : p.stationNameMax ≤ q.stationNameMax)
    (him : p.itemMax ≤ q.itemMax) (herr : p.errorMax ≤ q.errorMax)
    (hp1 : 1 ≤ p.itemsPerStation) :
    payloadChars (applyPayloadLimits mv p) ≤ payloadChars (applyPayloadLimits mv q) := by
  have hq1 : 1 ≤ q.itemsPerStation := le_trans hp1 hipc
  have hitems := items_jarr_mono (mv.lunch.items.filterMap cleanFoodName)
    p.itemMax q.itemMax p.fallbackLimit q.fallbackLimit him hfb
  have hstations := stations_jarr_mono mv.lunch.sections
    p.stationLimit q.stationLimit p.itemsPerStation q.itemsPerStation
    p.stationNameMax q.stationNameMax p.itemMax q.itemMax hL hipc hnm him hp1 hq1
  simp only [payloadChars, serializeEnvelope, serializePayload, serializeLunch,
    applyPayloadLimits, List.length_append]
  cases hE : mv.error with
  | none =>
    simp only [hE, Option.map_none']
    rw [compactItems_eq, compactItems_eq]
    omega
  | some e =>
    simp only [hE, Option.map_some']
    rw [compactItems_eq, compactItems_eq]
    by_cases he : e.isEmpty = true
    · rw [if_pos he, if_pos he]
      omega
    · rw [if_neg he, if_neg he]
      simp only [List.length_append]
      have herr2 : (jstr (truncateText e p.errorMax)).length ≤
          (jstr (truncateText e q.errorMax)).length := by
        rw [jstr_length, jstr_length]
        have := escLen_trunc_mono e herr
        omega
      omega

/-- CLAIM C1 (amended).  Along the compaction ladder, the serialized size of
the payload measured in CHARACTERS (UTF-16 code units on this repertoire) is
non-increasing from each profile to the next more restrictive one; the
byte-size version of the claim fails because the one-character ellipsis
introduced by truncation occupies three UTF-8 bytes (see the
counterexample). -/
theorem c1_chars_monotone_on_ladder :
    ∀ (mv : MergeVars),
      payloadChars (applyPayloadLimits mv plan2) ≤ payloadChars (applyPayloadLimits mv plan1) ∧
      payloadChars (applyPayloadLimits mv plan3) ≤ payloadChars (applyPayloadLimits mv plan2) ∧
      payloadChars (applyPayloadLimits mv plan4) ≤ payloadChars (applyPayloadLimits mv plan3) ∧
      payloadChars (applyPayloadLimits mv plan5) ≤ payloadChars (applyPayloadLimits mv plan4) := by
  intro mv
  refine ⟨?_, ?_, ?_, ?_⟩
  · exact applyPayloadLimits_chars_mono mv plan2 plan1 (by decide) (by decide) (by decide)
      (by decide) (by decide) (by decide) (by decide)
  · exact applyPayloadLimits_chars_mono mv plan3 plan2 (by decide) (by decide) (by decide)
      (by decide) (by decide) (by decide) (by decide)
  · exact applyPayloadLimits_chars_mono mv plan4 plan3 (by decide) (by decide) (by decide)
      (by decide) (by decide) (by decide) (by decide)
  · exact applyPayloadLimits_chars_mono mv plan5 plan4 (by decide) (by decide) (by decide)
      (by decide) (by decide) (by decide) (by decide)
